import Mathlib

/-!
Verification of the core state-management engine of the `ammo` mod organizer
(`src/ammo/mod_controller.py`, `src/ammo/mod.py`) against its natural-language
specification.  The Python code is shallowly embedded: the controller's
in-memory lists become Lean lists, the filesystem becomes a finite association
list from absolute path strings to entries, and each public operation becomes
a pure function returning `Except String` (a raised `Warning` is an `.error`
result; the caller's state is untouched in that case, matching Python where
the exception propagates before the method finishes mutating).
-/

namespace Ammo

/-! ## Python string primitives

The order files and path manipulations in the source use a handful of Python
`str` operations.  They are embedded here on `List Char` (a text line is a
character sequence) with `String` wrappers. -/

/-- chStartsWith l p : does character list l start with pattern p (Python startswith). -/
def chStartsWith : List Char → List Char → Bool
  | _, [] => true
  | [], _ :: _ => false
  | a :: as, b :: bs => a == b && chStartsWith as bs

/-- strStartsWith s p : Python s.startswith(p). -/
def strStartsWith (s p : String) : Bool :=
  chStartsWith s.data p.data

/-- chStripLead pr l : drop leading characters satisfying pr (half of Python strip). -/
def chStripLead (pr : Char → Bool) (l : List Char) : List Char :=
  l.dropWhile pr

/-- chStripBoth pr l : drop characters satisfying pr from both ends (Python strip). -/
def chStripBoth (pr : Char → Bool) (l : List Char) : List Char :=
  ((l.dropWhile pr).reverse.dropWhile pr).reverse

/-- pyStripChar s c : Python s.strip(c) for a single strip character c. -/
def pyStripChar (s : String) (c : Char) : String :=
  ⟨chStripBoth (· == c) s.data⟩

/-- pyStripWs s : Python s.strip() (strip whitespace from both ends). -/
def pyStripWs (s : String) : String :=
  ⟨chStripBoth Char.isWhitespace s.data⟩

/-- pyLStripChar s c : Python s.lstrip(c). -/
def pyLStripChar (s : String) (c : Char) : String :=
  ⟨chStripLead (· == c) s.data⟩

/-- chContains l p : does l contain p as a contiguous sublist (Python `p in l`,
truthiness of l.count(p)). -/
def chContains : List Char → List Char → Bool
  | [], p => chStartsWith [] p
  | c :: rest, p => chStartsWith (c :: rest) p || chContains rest p

/-- strContains s p : Python `p in s` / truthiness of s.count(p). -/
def strContains (s p : String) : Bool :=
  chContains s.data p.data

/-- strEndsWith s p : Python s.endswith(p), via the character lists. -/
def strEndsWith (s p : String) : Bool :=
  chStartsWith s.data.reverse p.data.reverse

/-- strToLower s : Python s.lower(), via the character list. -/
def strToLower (s : String) : String :=
  ⟨s.data.map Char.toLower⟩

/-- chSplitOnceTail l sep : Python l.split(sep, 1)[-1] on character lists: everything
after the first occurrence of (non-empty) sep, or l itself if sep does not occur. -/
def chSplitOnceTail : List Char → List Char → List Char
  | [], _ => []
  | c :: rest, sep =>
    if sep ≠ [] && chStartsWith (c :: rest) sep then rest.drop (sep.length - 1)
    else if chContains rest sep then chSplitOnceTail rest sep
    else c :: rest

/-- pySplitOnceTail s sep : Python s.split(sep, 1)[-1]. -/
def pySplitOnceTail (s sep : String) : String :=
  ⟨chSplitOnceTail s.data sep.data⟩

/-- chSplitLastGo fuel l sep : repeatedly take the tail after the first occurrence
of sep while one remains; fuel bounds the recursion by the length of l. -/
def chSplitLastGo : Nat → List Char → List Char → List Char
  | 0, l, _ => l
  | fuel + 1, l, sep =>
    if sep ≠ [] && chContains l sep then chSplitLastGo fuel (chSplitOnceTail l sep) sep
    else l

/-- pySplitLastTail s sep : Python s.split(sep)[-1], the last segment of the
left-to-right non-overlapping split (s itself when sep does not occur). -/
def pySplitLastTail (s sep : String) : String :=
  ⟨chSplitLastGo s.data.length s.data sep.data⟩

/-- pyJoin a b : Python os.path.join(a, b) for two components: an absolute second
argument discards the first. -/
def pyJoin (a b : String) : String :=
  if strStartsWith b "/" then b
  else if a = "" then b
  else if strEndsWith a "/" then a ++ b
  else a ++ "/" ++ b

/-- chReplaceGo fuel l pat rep : the worker for Python replace; every step
consumes at least one character of l, so l.length fuel suffices. -/
def chReplaceGo : Nat → List Char → List Char → List Char → List Char
  | 0, l, _, _ => l
  | fuel + 1, l, pat, rep =>
    match l with
    | [] => []
    | c :: rest =>
      if pat ≠ [] && chStartsWith (c :: rest) pat then
        rep ++ chReplaceGo fuel (rest.drop (pat.length - 1)) pat rep
      else c :: chReplaceGo fuel rest pat rep

/-- chReplace l pat rep : Python l.replace(pat, rep) (all non-overlapping
occurrences, left to right) for a non-empty pattern. -/
def chReplace (l pat rep : List Char) : List Char :=
  chReplaceGo l.length l pat rep

/-- pyReplace s pat rep : Python s.replace(pat, rep) for non-empty pat. -/
def pyReplace (s pat rep : String) : String :=
  ⟨chReplace s.data pat.data rep.data⟩

/-! ## Filesystem model

An abstract filesystem: a finite association list from absolute path strings to
entries.  Directories are modelled only where the source queries their
existence; intermediate directory creation (`Path.mkdir(..., exist_ok=True)`)
is abstracted away. -/

/-- FSEntry : what a path holds: a regular file, a directory, or a symbolic
link with its target. -/
inductive FSEntry where
  | file : FSEntry
  | dir : FSEntry
  | link : String → FSEntry
deriving DecidableEq, Repr

/-- FS : the filesystem, an association list path to entry. -/
abbrev FS := List (String × FSEntry)

/-- fsGet fs p : the entry at path p, if any (first association wins). -/
def fsGet (fs : FS) (p : String) : Option FSEntry :=
  (fs.find? (fun e => e.1 == p)).map (·.2)

/-- fsExists fs p : Python os.path.exists / Path.exists for the model. -/
def fsExists (fs : FS) (p : String) : Bool :=
  (fsGet fs p).isSome

/-- FSEntry.isLink e : is the entry a symbolic link (Path.is_symlink). -/
def FSEntry.isLink : FSEntry → Bool
  | .link _ => true
  | _ => false

/-- underDir d p : is path p strictly inside directory d (reached by os.walk(d)). -/
def underDir (d p : String) : Bool :=
  strStartsWith p (d ++ "/")

/-! ## Entity model (src/ammo/mod.py) -/

/-- ParentRef : a Plugin's parent: a reference (by name) to a managed Mod, or a
synthetic DLC stand-in.  The Python code stores an object reference; since the
engine resolves everything relevant by name, the embedding stores the name plus
which kind of object it was. -/
inductive ParentRef where
  | modOf : String → ParentRef
  | dlcOf : String → ParentRef
deriving DecidableEq, Repr

/-- ParentRef.name : the name of the parent (Mod.name or DLC.name). -/
def ParentRef.name : ParentRef → String
  | .modOf n => n
  | .dlcOf n => n

/-- Mod : a dataclass from src/ammo/mod.py.  `files` is the mapping from file
name to absolute source path built by the directory scan in __post_init__ (the
scan itself is filesystem enumeration and is taken as given data; its results
are what the claims quantify over).  `visible` is the transient filter flag. -/
structure Mod where
  name : String
  location : String
  parent_data_dir : String
  modconf : String := ""
  has_data_dir : Bool := false
  fomod : Bool := false
  enabled : Bool := false
  visible : Bool := true
  files : List (String × String) := []
  plugins : List String := []
deriving DecidableEq, Repr

/-- Mod.fileNames m : the keys of the `files` mapping. -/
def Mod.fileNames (m : Mod) : List String :=
  m.files.map Prod.fst

/-- Plugin : a dataclass from src/ammo/mod.py (name, enabled, parent_mod), plus
the transient `visible` flag. -/
structure Plugin where
  name : String
  enabled : Bool
  parent_ref : ParentRef
  visible : Bool := true
deriving DecidableEq, Repr

/-- Download : a discovered archive file (name, location, transient visible). -/
structure Download where
  name : String
  location : String
  visible : Bool := true
deriving DecidableEq, Repr

/-- Game : the immutable path configuration from mod_controller.Game. -/
structure Game where
  name : String
  directory : String
  data : String
  ammo_conf : String
  dlc_file : String
  plugin_file : String
  ammo_mods_dir : String
deriving DecidableEq, Repr

/-- Mod.files_in_place fs m : faithful embedding of Mod.files_in_place
(src/ammo/mod.py lines 123-133).  For each recorded source path it computes
`os.path.join(location.split(self.name, 1)[-1].strip("/"), self.parent_data_dir)`
— note the argument order of the join as written in the source — and checks
that the resulting path exists. -/
def Mod.files_in_place (fs : FS) (m : Mod) : Bool :=
  m.files.all fun pr =>
    fsExists fs (pyJoin (pyStripChar (pySplitOnceTail pr.2 m.name) '/') m.parent_data_dir)

/-- filesInPlaceSpec fs m : the check the specification describes ("for every
recorded file, checks that the corresponding path exists relative to the
game's data root"): the mod-relative path of each recorded file joined under
parent_data_dir.  Used only to contrast with Mod.files_in_place. -/
def filesInPlaceSpec (fs : FS) (m : Mod) : Bool :=
  m.files.all fun pr =>
    fsExists fs (pyJoin m.parent_data_dir (pyStripChar (pySplitOnceTail pr.2 m.name) '/'))

/-- Mod.associated m ps : Mod.associated_plugins — the plugins of ps whose name
equals one of m's file names (each plugin listed once: `files` keys are unique). -/
def Mod.associated (m : Mod) (ps : List Plugin) : List Plugin :=
  ps.filter fun p => m.fileNames.contains p.name

-- DLC.files_in_place in the source always returns true, and a DLC is always
-- enabled; loadPluginLine below inlines both facts.

/-! ## Controller state and the ordering and activation engine
(src/ammo/mod_controller.py) -/

/-- ComponentEnum : the component kinds accepted by activate/deactivate/move. -/
inductive ComponentEnum where
  | modKind : ComponentEnum
  | pluginKind : ComponentEnum
deriving DecidableEq, Repr

/-- DeleteEnum : the component kinds accepted by delete/rename. -/
inductive DeleteEnum where
  | modKind : DeleteEnum
  | downloadKind : DeleteEnum
deriving DecidableEq, Repr

/-- AmmoState : the in-memory lists and flags owned by ModController. -/
structure AmmoState where
  changes : Bool := false
  downloads : List Download := []
  mods : List Mod := []
  plugins : List Plugin := []
  keywords : List String := []
deriving DecidableEq, Repr

/-- providedElsewhere mods subjectName n : the inner loop of the deactivation
branch of _set_component_state: is there a currently-enabled mod, other than
the subject (compared by name), among whose file names n occurs?  (In the
source the membership test is `plugin in mod.associated_plugins(self.plugins)`;
since the tested plugin is itself still a member of self.plugins at that point,
that test is equivalent to its name being one of mod's file names.) -/
def providedElsewhere (mods : List Mod) (subjectName n : String) : Bool :=
  mods.any fun m => m.name != subjectName && m.enabled && m.fileNames.contains n

/-- addPluginName mname acc n : one step of the activation branch of
_set_component_state: append a new disabled Plugin named n parented to the mod
named mname, unless a plugin of that name is already managed. -/
def addPluginName (mname : String) (acc : List Plugin) (n : String) :
    List Plugin :=
  if (acc.map Plugin.name).contains n then acc
  else acc ++ [{ name := n, enabled := false, parent_ref := ParentRef.modOf mname }]

/-- Mod.addMissingPlugins m ps : the activation branch of _set_component_state:
for each plugin name of m in order, add it via addPluginName. -/
def Mod.addMissingPlugins (m : Mod) (ps : List Plugin) : List Plugin :=
  m.plugins.foldl (addPluginName m.name) ps

/-- set_component_state c index state s : _set_component_state
(mod_controller.py lines 231-286).  Out-of-range indices raise (IndexError,
demoted to a Warning by activate/deactivate); an unconfigured fomod refuses
activation; activating a mod appends its missing plugins (disabled, parented
to it); deactivating a mod removes its associated plugins unless another
enabled mod also provides a file of the same name (kept plugins are not
modified, in particular their parent is unchanged); plugins just flip their
flag.  Finally `changes` is assigned (not or-ed) the comparison of the
subject's starting and ending enabled flag. -/
def set_component_state (c : ComponentEnum) (index : Nat) (state : Bool)
    (s : AmmoState) : Except String AmmoState :=
  match c with
  | ComponentEnum.pluginKind =>
    match s.plugins.get? index with
    | none => .error "Index out of range."
    | some subject =>
      let newSubject := { subject with enabled := state }
      .ok { s with
        plugins := s.plugins.set index newSubject,
        changes := subject.enabled != newSubject.enabled }
  | ComponentEnum.modKind =>
    match s.mods.get? index with
    | none => .error "Index out of range."
    | some subject =>
      if subject.fomod && state && !subject.has_data_dir then
        .error "Fomods must be configured before they can be enabled."
      else
        let newSubject := { subject with enabled := state }
        let mods1 := s.mods.set index newSubject
        if state then
          .ok { s with
            mods := mods1,
            plugins := newSubject.addMissingPlugins s.plugins,
            changes := subject.enabled != newSubject.enabled }
        else
          let plugins1 := s.plugins.filter fun p =>
            !(newSubject.fileNames.contains p.name &&
              !providedElsewhere mods1 newSubject.name p.name)
          .ok { s with
            mods := mods1,
            plugins := plugins1,
            changes := subject.enabled != newSubject.enabled }

/-- activate c index s : the single-index path of ModController.activate. -/
def activate (c : ComponentEnum) (index : Nat) (s : AmmoState) :
    Except String AmmoState :=
  set_component_state c index true s

/-- deactivate c index s : the single-index path of ModController.deactivate. -/
def deactivate (c : ComponentEnum) (index : Nat) (s : AmmoState) :
    Except String AmmoState :=
  set_component_state c index false s

/-- moveList l index new_index : the list manipulation of ModController.move on
either component list.  Returns the new list and whether `self.changes` was
set.  Equal indices return early without touching anything; an overlong
destination is clamped to the last index; an overlong source raises.  (The
final `get?` is the pop itself; for a list that passed the source-index bound
check it cannot be `none` unless the list is empty, in which case Python's
`pop` raises as well.) -/
def moveList {α : Type} (l : List α) (index new_index : Nat) :
    Except String (List α × Bool) :=
  if index = new_index then .ok (l, false)
  else if index > l.length - 1 then .error "Index out of range."
  else
    match l.get? index with
    | none => .error "Index out of range."
    | some x =>
      .ok ((l.eraseIdx index).insertIdx
        (if new_index > l.length - 1 then l.length - 1 else new_index) x, true)

/-- move c index new_index s : ModController.move (lines 664-680). -/
def move (c : ComponentEnum) (index new_index : Nat) (s : AmmoState) :
    Except String AmmoState :=
  match c with
  | ComponentEnum.modKind =>
    match moveList s.mods index new_index with
    | .error e => .error e
    | .ok (l, changed) =>
      .ok { s with mods := l, changes := if changed then true else s.changes }
  | ComponentEnum.pluginKind =>
    match moveList s.plugins index new_index with
    | .error e => .error e
    | .ok (l, changed) =>
      .ok { s with plugins := l, changes := if changed then true else s.changes }

/-! ## Visibility filter (ModController.find, lines 723-779) -/

/-- visibleUnder matches kws : the per-component keyword loop of find.  The
source sets visible to True, then for each keyword sets it to False, flips it
back on a match and breaks; the net result is: visible when the keyword list
is empty or some keyword matches. -/
def visibleUnder (matchKw : String → Bool) (kws : List String) : Bool :=
  match kws with
  | [] => true
  | _ :: _ => kws.any matchKw

/-- find keywords s : ModController.find.  First pass computes visibility per
component (with the "fomods" hack for mods and the parent-name rule for
plugins), the second pass re-shows every mod providing a visible plugin's
name, and a single reserved keyword then overrides the whole result.  The
three reserved comparisons are independent `if`s in the source, but a single
keyword can equal at most one of the three strings; note that the body of the
`plugins` branch re-shows `self.mods`, not `self.plugins`, exactly as the
source is written. -/
def find (keywords : List String) (s : AmmoState) : AmmoState :=
  let modMatch := fun (m : Mod) (kw : String) =>
    (strToLower kw == "fomods" && m.fomod) || strContains (strToLower m.name) (strToLower kw)
  let pluginMatch := fun (p : Plugin) (kw : String) =>
    strContains (strToLower p.name) (strToLower kw) ||
      strContains (strToLower p.parent_ref.name) (strToLower kw)
  let downloadMatch := fun (d : Download) (kw : String) =>
    strContains (strToLower d.name) (strToLower kw)
  let mods1 := s.mods.map fun m =>
    { m with visible := visibleUnder (modMatch m) keywords }
  let plugins1 := s.plugins.map fun p =>
    { p with visible := visibleUnder (pluginMatch p) keywords }
  let downloads1 := s.downloads.map fun d =>
    { d with visible := visibleUnder (downloadMatch d) keywords }
  let mods2 := mods1.map fun m =>
    if plugins1.any (fun p => p.visible && m.plugins.contains p.name) then
      { m with visible := true }
    else m
  let result := { s with keywords := keywords, mods := mods2,
                         plugins := plugins1, downloads := downloads1 }
  match keywords with
  | [kw0] =>
    let kw := strToLower kw0
    if kw == "downloads" then
      { result with
        mods := result.mods.map (fun m => { m with visible := false }),
        plugins := result.plugins.map (fun p => { p with visible := false }),
        downloads := result.downloads.map (fun d => { d with visible := true }) }
    else if kw == "mods" then
      { result with
        plugins := result.plugins.map (fun p => { p with visible := false }),
        downloads := result.downloads.map (fun d => { d with visible := false }),
        mods := result.mods.map (fun m => { m with visible := true }) }
    else if kw == "plugins" then
      -- The source hides self.mods + self.downloads, then iterates *self.mods*
      -- again (not self.plugins) setting visible = True.
      { result with
        mods := ((result.mods.map (fun m => { m with visible := false })).map
          (fun m => { m with visible := true })),
        downloads := result.downloads.map (fun d => { d with visible := false }) }
    else result
  | _ => result

/-! ## Staging and commit engine -/

/-- saveModLines mods : the ammo.conf half of _save_order: one line per mod in
list order, a `*` marker prefixed when enabled. -/
def saveModLines (mods : List Mod) : List String :=
  mods.map fun m => (if m.enabled then "*" else "") ++ m.name

/-- savePluginLines plugins : the Plugins.txt half of _save_order. -/
def savePluginLines (plugins : List Plugin) : List String :=
  plugins.map fun p => (if p.enabled then "*" else "") ++ p.name

/-- osPathSplit p : os.path.split for the deep absolute paths normalize is
called on: the directory part before the last slash and the base name after
it (root-path trailing-slash subtleties are not exercised). -/
def osPathSplit (p : String) : String × String :=
  if chContains p.data ['/'] then
    let fileRev := p.data.reverse.takeWhile (· ≠ '/')
    (⟨p.data.take (p.data.length - fileRev.length - 1)⟩, ⟨fileRev.reverse⟩)
  else ("", p)

/-- normalizeDirs : the fixed set of well-known folder names whose canonical
case is preserved. -/
def normalizeDirs : List String :=
  ["Data", "DynDOLOD", "Plugins", "SKSE", "Edit Scripts", "Docs", "Scripts",
   "Source"]

/-- Modelled from the spec: `normalize` is imported from src/ammo/lib.py,
which is not present under src/ ("preserving a case-insensitive canonical
form for a fixed set of well-known subfolder names"); the body mirrors the
inline normalize retained in src/ammo/ammo.py lines 463-473: lower-case the
game-relative directory part, restore the canonical case of each well-known
folder name, and re-attach the file name. -/
def normalize (destination gameDir : String) : String :=
  let ps := osPathSplit destination
  let localPath := strToLower (pySplitLastTail ps.1 gameDir)
  let localPath := normalizeDirs.foldl (fun acc i => pyReplace acc (strToLower i) i) localPath
  let newDest := pyJoin gameDir (pyLStripChar localPath '/')
  pyJoin newDest ps.2

/-- dictUpsert l k v : Python dict assignment d[k] = v for a dict kept as an
insertion-ordered association list: an existing key keeps its position and
gets the new value, a new key is appended. -/
def dictUpsert {β : Type} (l : List (String × β)) (k : String) (v : β) :
    List (String × β) :=
  if l.any (·.1 == k) then l.map (fun e => if e.1 == k then (k, v) else e)
  else l ++ [(k, v)]

/-- stageOf g s : ModController._stage (lines 288-325).  For each enabled mod
in list order, for each of its source files, compute the sanitized destination
and record destination to (mod name, source); later mods silently overwrite
earlier entries at the same destination.  In the controller's Mod class
(component.py, which is not under src/) iterating `files` yields the absolute
source paths — evidenced by `assert src.is_absolute()` in commit and by the
conflict-resolution tests — i.e. the values of the name-to-path mapping. -/
def stageOf (g : Game) (s : AmmoState) : List (String × (String × String)) :=
  (s.mods.filter (fun m => m.enabled)).foldl
    (fun result m =>
      m.files.foldl
        (fun result pr =>
          let src := pr.2
          let corrected_name := pySplitOnceTail src m.name
          if strToLower corrected_name == "fomod" then result
          else
            let dest :=
              if m.has_data_dir then
                pyJoin g.directory
                  (pyLStripChar (pyReplace corrected_name "/data" "/Data") '/')
              else
                pyJoin g.directory ("Data" ++ corrected_name)
            dictUpsert result (normalize dest g.directory) (m.name, src))
        result)
    []

/-- clean_data_dir g fs : ModController._clean_data_dir: remove every symbolic
link anywhere under the game directory (whether or not this program created
it); _remove_empty_dirs only deletes empty directories, which the flat
filesystem model abstracts away. -/
def clean_data_dir (g : Game) (fs : FS) : FS :=
  fs.filter fun e => !(underDir g.directory e.1 && e.2.isLink)

/-- skipMessage g name dest : the per-skip warning text built in commit. -/
def skipMessage (g : Game) (name dest : String) : String :=
  name ++ " skipped overwriting an unmanaged file: " ++
    pyLStripChar (pySplitLastTail dest g.directory) '/' ++ "."

/-- applyStageStep g acc entry : one iteration of the link-creation loop of
commit: create a symlink at the destination unless some entry already exists
there (FileExistsError), in which case record a skip message and continue.
(Parent-directory creation with exist_ok=True is abstracted away.) -/
def applyStageStep (g : Game) (acc : FS × List String)
    (entry : String × (String × String)) : FS × List String :=
  if fsExists acc.1 entry.1 then
    (acc.1, acc.2 ++ [skipMessage g entry.2.1 entry.1])
  else (acc.1 ++ [(entry.1, FSEntry.link entry.2.2)], acc.2)

/-- applyStage g fs st : the link-creation loop of commit over all stage
entries in order, collecting the skip reports. -/
def applyStage (g : Game) (fs : FS) (st : List (String × (String × String))) :
    FS × List String :=
  st.foldl (applyStageStep g) (fs, [])

/-- CommitResult : everything commit produces: the new in-memory state, the new
filesystem, the two order files it wrote, and the collected skip reports. -/
structure CommitResult where
  state : AmmoState
  fs : FS
  modLines : List String
  pluginLines : List String
  skipped : List String
deriving DecidableEq, Repr

/-- commit g s fs : ModController.commit (lines 682-715): persist the order
files, compute the stage, tear down all links, apply the stage entry by entry
collecting skips, clear the changes flag, and finally raise a Warning listing
the skips if there were any (after every entry was attempted and after the
flag was already cleared). -/
def commit (g : Game) (s : AmmoState) (fs : FS) : CommitResult :=
  let modLines := saveModLines s.mods
  let pluginLines := savePluginLines s.plugins
  let st := stageOf g s
  let fs1 := clean_data_dir g fs
  let applied := applyStage g fs1 st
  { state := { s with changes := false }, fs := applied.1,
    modLines := modLines, pluginLines := pluginLines, skipped := applied.2 }

/-- commitWarn cr : commit raises a Warning whose text concatenates the skip
reports, each followed by a newline, when any link was skipped; the raise
happens only after every stage entry was attempted and after self.changes was
already cleared. -/
def commitWarn (cr : CommitResult) : Option String :=
  match cr.skipped with
  | [] => none
  | _ => some (String.join (cr.skipped.map (· ++ "\n")))

/-! ## Repository loader (ModController.__init__, lines 45-169)

The surrounding world: the two persisted order files and the DLC listing are
carried as optional line lists (`none` = the file does not exist), and the
directory scans that build Mod/Download objects out of raw directory trees are
oracles (they are filesystem enumeration plus the __post_init__ scan, which
the claims treat as given data). -/

/-- World : the controller state plus everything on disk it reads and writes. -/
structure World where
  state : AmmoState
  fs : FS
  confLines : Option (List String)
  pluginLines : Option (List String)
  dlcLines : Option (List String)

/-- Oracles : the external collaborators and directory scans: mod-directory
enumeration, download enumeration, Mod.__post_init__ re-scan, 7z extraction
and integrity checking, and the interactive fomod wizard. -/
structure Oracles where
  scanMods : FS → List Mod
  scanDownloads : FS → List Download
  rescanMod : Mod → FS → Mod
  extract : String → String → FS → FS
  integrityOk : String → Bool
  checkIntegrity : Bool
  wizard : Mod → FS → FS
  scanNewMod : String → String → FS → Mod

/-- setFirstByName mods name enabled : the inner loop of the mod-order phase:
set the enabled flag of the first mod with the given name (then break). -/
def setFirstByName (mods : List Mod) (name : String) (enabled : Bool) :
    List Mod :=
  match mods with
  | [] => []
  | m :: rest =>
    if m.name == name then { m with enabled := enabled } :: rest
    else m :: setFirstByName rest name enabled

/-- orderModsStep : one line of the ammo.conf ordering phase: skip comments,
parse the name and marker, skip names that were not discovered on disk,
otherwise set the flag on the (first) matching mod and record its name in the
ordered sequence.  Python appends the live Mod object; the aliasing (a later
line may mutate a mod already appended) is modelled by recording names and
reading the mods back out of the updated store at the end. -/
def orderModsStep (acc : List Mod × List String) (line : String) :
    List Mod × List String :=
  if strStartsWith line "#" then acc
  else
    let name := pyStripWs (pyStripChar line '*')
    let enabled := strStartsWith line "*"
    if !(acc.1.map Mod.name).contains name then acc
    else (setFirstByName acc.1 name enabled, acc.2 ++ [name])

/-- orderMods scanned confLines : the ammo.conf phase of __init__ (lines
71-97): order the scanned mods by their first matching line, flag them by the
marker, and append every mod the file does not mention at the end (disabled,
i.e. with the flag it had from the scan). -/
def orderMods (scanned : List Mod) (confLines : List String) : List Mod :=
  let acc := confLines.foldl orderModsStep (scanned, [])
  let ordered := acc.2.filterMap fun n => acc.1.find? (fun m => m.name == n)
  ordered ++ acc.1.filter (fun m => !acc.2.contains m.name)

/-- LoadCtx : the evolving (mods, plugins) pair while the plugin files are
read; the self-heal rule mutates mods mid-read. -/
structure LoadCtx where
  mods : List Mod
  plugins : List Plugin
deriving DecidableEq, Repr

/-- revProviderIdx mods name : the reverse scan `for mod in self.mods[::-1]`:
the index of the last mod in list order whose plugin set contains the name. -/
def revProviderIdx (mods : List Mod) (name : String) : Option Nat :=
  match (mods.reverse).findIdx? (fun m => m.plugins.contains name) with
  | none => none
  | some i => some (mods.length - 1 - i)

/-- loadPluginLine g fs ctx line : one line of the Plugins.txt/DLCList.txt
phase of __init__ (lines 113-156): skip blanks and comments; skip names whose
backing file is absent from the game data directory; resolve the parent by the
reverse scan, defaulting to a transient DLC; if the line is enabled and the
parent's files_in_place holds, force the parent mod enabled (on the DLC parent
this mutates only the transient object); skip the line if the parent ends up
disabled (a DLC parent is always enabled); append a Plugin carrying the line's
flag unless the name is already managed.  The unreachable `none` arms cover
`get?` at the index revProviderIdx just returned. -/
def loadPluginLine (g : Game) (fs : FS) (ctx : LoadCtx) (line : String) :
    LoadCtx :=
  if pyStripWs line == "" || strStartsWith (pyStripWs line) "#" then ctx
  else
    let name := pyStripWs (pyStripChar line '*')
    if !fsExists fs (pyJoin g.data name) then ctx
    else
      let enabled := strStartsWith (pyStripWs line) "*"
      match revProviderIdx ctx.mods name with
      | none =>
        if (ctx.plugins.map Plugin.name).contains name then ctx
        else
          { ctx with plugins := ctx.plugins ++
              [{ name := name, enabled := enabled,
                 parent_ref := ParentRef.dlcOf name }] }
      | some i =>
        match ctx.mods.get? i with
        | none => ctx
        | some m =>
          let mods1 :=
            if enabled && Mod.files_in_place fs m then
              ctx.mods.set i { m with enabled := true }
            else ctx.mods
          match mods1.get? i with
          | none => ctx
          | some mNow =>
            if !mNow.enabled then { ctx with mods := mods1 }
            else if (ctx.plugins.map Plugin.name).contains name then
              { ctx with mods := mods1 }
            else
              { ctx with
                mods := mods1,
                plugins := ctx.plugins ++
                  [{ name := name, enabled := enabled,
                     parent_ref := ParentRef.modOf mNow.name }] }

/-- reload o g w : ModController.__init__ re-run against the current disk
contents (this is exactly what refresh does): scan the mods directory, apply
the ammo.conf ordering if that file exists, ensure Plugins.txt exists (create
empty), read it and then the DLC listing in one pass, scan downloads, clear
the changes flag, and re-apply the remembered find keywords. -/
def reload (o : Oracles) (g : Game) (w : World) : World :=
  let scanned := o.scanMods w.fs
  let mods1 :=
    match w.confLines with
    | none => scanned
    | some lines => orderMods scanned lines
  let pluginLines := w.pluginLines.getD []
  let allLines := pluginLines ++ (w.dlcLines.getD [])
  let ctx := allLines.foldl (loadPluginLine g w.fs) ⟨mods1, []⟩
  let st : AmmoState :=
    { changes := false, downloads := o.scanDownloads w.fs,
      mods := ctx.mods, plugins := ctx.plugins,
      keywords := w.state.keywords }
  { w with state := find w.state.keywords st, pluginLines := some pluginLines }

/-- refresh o g w : ModController.refresh (lines 717-721).  Note: the body is
just `self.__init__(...)`; there is no check of the changes flag, so pending
edits are discarded unconditionally and no Warning is ever raised. -/
def refresh (o : Oracles) (g : Game) (w : World) : Except String World :=
  .ok (reload o g w)

/-! ## Guarded operations (install / delete / rename / configure)

Each of these begins with the changes-pending admission check; their bodies
use the extraction / wizard / re-scan oracles for the genuinely external
steps and the filesystem model for everything else. -/

/-- IndexArg : the Union[int, str] index parameter: a number or "all". -/
inductive IndexArg where
  | all : IndexArg
  | num : Nat → IndexArg
deriving DecidableEq, Repr

/-- pyStem p : Path.stem — the final path component without its last suffix. -/
def pyStem (p : String) : String :=
  let base := (osPathSplit p).2
  if chContains base.data ['.'] then
    ⟨(((base.data.reverse.dropWhile (· ≠ '.')).drop 1)).reverse⟩
  else base

/-- pySuffix p : Path.suffix — the last extension of the final component,
including the dot, or "" if there is none. -/
def pySuffix (p : String) : String :=
  let base := (osPathSplit p).2
  if chContains base.data ['.'] then
    ⟨'.' :: (base.data.reverse.takeWhile (· ≠ '.')).reverse⟩
  else ""

/-- sanitizeExtractName stem : the destination folder name derived in
install_download: replace spaces with underscores, keep only alphanumerics
and underscores, strip surrounding whitespace. -/
def sanitizeExtractName (stem : String) : String :=
  pyStripWs ⟨(stem.data.map fun c => if c == ' ' then '_' else c).filter
    (fun c => c.isAlphanum || c == '_')⟩

/-- strDropPre s pre : s with the leading occurrence of pre removed (s must
start with pre where used). -/
def strDropPre (s pre : String) : String :=
  ⟨s.data.drop pre.data.length⟩

/-- childNames fs d : the distinct first path components below directory d
(Path.iterdir on the model). -/
def childNames (fs : FS) (d : String) : List String :=
  (fs.filterMap fun e =>
    if underDir d e.1 then
      some ⟨(strDropPre e.1 (d ++ "/")).data.takeWhile (· ≠ '/')⟩
    else none).dedup

/-- isDirIn fs p : does p behave as a directory (an explicit dir entry or a
path with entries below it). -/
def isDirIn (fs : FS) (p : String) : Bool :=
  fsGet fs p == some FSEntry.dir || fs.any (fun e => underDir p e.1)

/-- knownTopFolders : the recognized top-level content folder names from
has_extra_folder. -/
def knownTopFolders : List String :=
  ["data", "skse", "bashtags", "docs", "meshes", "textures", "animations",
   "interface", "misc", "shaders", "sounds", "voices", "edit scripts"]

/-- has_extra_folder fs path : the wrapper-folder test in install (lines
573-597): exactly one child, which is a directory, whose lower-cased name is
not a recognized content folder and whose suffix is not a plugin extension. -/
def has_extra_folder (fs : FS) (path : String) : Bool :=
  match childNames fs path with
  | [child] =>
    isDirIn fs (path ++ "/" ++ child) &&
    !knownTopFolders.contains (strToLower child) &&
    !([".esp", ".esl", ".esm"].contains (strToLower (pySuffix child)))
  | _ => false

/-- hoistChild fs path child : the wrapper-elimination loop: every entry below
path/child moves up one level. -/
def hoistChild (fs : FS) (path child : String) : FS :=
  fs.map fun e =>
    if underDir (path ++ "/" ++ child) e.1 then
      (path ++ "/" ++ strDropPre e.1 (path ++ "/" ++ child ++ "/"), e.2)
    else e

/-- install_download o g idx d : the per-download body of install: derive and
check the destination folder, run the integrity check (skipped under pytest —
the checkIntegrity oracle flag), extract, hoist a redundant wrapper folder,
and append the freshly scanned Mod. -/
def install_download (o : Oracles) (g : Game) (idx : Nat) (d : Download)
    (st : AmmoState) (fs : FS) : Except String (AmmoState × FS) :=
  let extract_to := g.ammo_mods_dir ++ "/" ++ sanitizeExtractName (pyStem d.location)
  if fsExists fs extract_to || isDirIn fs extract_to then
    .error ("Extraction of " ++ toString idx ++ " failed since mod '" ++
      (osPathSplit extract_to).2 ++ "' exists.")
  else if o.checkIntegrity && !o.integrityOk d.location then
    .error ("Extraction of " ++ toString idx ++
      " failed at integrity check. Incomplete download?")
  else
    let fs1 := o.extract d.location extract_to fs
    let fs2 :=
      match childNames fs1 extract_to with
      | [child] =>
        if has_extra_folder fs1 extract_to then hoistChild fs1 extract_to child
        else fs1
      | _ => fs1
    let newMod := o.scanNewMod (pyStem extract_to) extract_to fs2
    .ok ({ st with mods := st.mods ++ [newMod] }, fs2)

/-- install o g index w : ModController.install (lines 560-662).  The first
statement is the changes-pending guard. -/
def install (o : Oracles) (g : Game) (index : IndexArg) (w : World) :
    Except String World :=
  if w.state.changes then
    .error "You must `commit` changes before installing a mod."
  else
    match index with
    | .all =>
      let step := fun (acc : AmmoState × FS × List String) (pr : Nat × Download) =>
        if pr.2.visible then
          match install_download o g pr.1 pr.2 acc.1 acc.2.1 with
          | .ok (st, fs) => (st, fs, acc.2.2)
          | .error e => (acc.1, acc.2.1, acc.2.2 ++ [e])
        else acc
      let res := w.state.downloads.enum.foldl step (w.state, w.fs, [])
      if res.2.2 ≠ [] then .error (String.intercalate "\n" res.2.2)
      else refresh o g { w with state := res.1, fs := res.2.1 }
    | .num i =>
      match w.state.downloads.get? i with
      | none => .error "Index out of range."
      | some d =>
        match install_download o g i d w.state w.fs with
        | .error e => .error e
        | .ok (st, fs) => refresh o g { w with state := st, fs := fs }

/-- rmtreeFS fs root : shutil.rmtree — drop root and everything below it. -/
def rmtreeFS (fs : FS) (root : String) : FS :=
  fs.filter fun e => !(e.1 == root || underDir root e.1)

/-- renamePathFS fs oldP newP : os.rename / Path.rename of a file or of a
whole directory tree. -/
def renamePathFS (fs : FS) (oldP newP : String) : FS :=
  fs.map fun e =>
    if e.1 == oldP then (newP, e.2)
    else if underDir oldP e.1 then (newP ++ "/" ++ strDropPre e.1 (oldP ++ "/"), e.2)
    else e

/-- visibleIdxs l : the current indices of the visible entries. -/
def visibleIdxs {α : Type} (vis : α → Bool) (l : List α) : List Nat :=
  (l.enum.filter fun pr => vis pr.2).map Prod.fst

/-- delete o g c index w : ModController.delete (lines 505-558); the guard is
the first statement.  In the "all" branches visible entries are deactivated
(mods) and removed by value lookup; deactivating a mod at a valid index with
state False cannot raise, so the fold keeps the prior state on the unreachable
error arm. -/
def delete (_o : Oracles) (g : Game) (c : DeleteEnum) (index : IndexArg)
    (w : World) : Except String World :=
  if w.state.changes then
    .error "You must `commit` changes before deleting files."
  else
    match c with
    | DeleteEnum.modKind =>
      match index with
      | .all =>
        let idxs := visibleIdxs Mod.visible w.state.mods
        let s1 := idxs.foldl
          (fun st i =>
            match deactivate ComponentEnum.modKind i st with
            | .ok st' => st'
            | .error _ => st)
          w.state
        let removed := s1.mods.filter (·.visible)
        let s2 := { s1 with mods := s1.mods.filter (fun m => !m.visible) }
        let fs1 := removed.foldl (fun fs m => rmtreeFS fs m.location) w.fs
        let cr := commit g s2 fs1
        let w1 := { w with state := cr.state, fs := cr.fs,
                           confLines := some cr.modLines,
                           pluginLines := some cr.pluginLines }
        match commitWarn cr with
        | some msg => .error msg
        | none => .ok w1
      | .num i =>
        match deactivate ComponentEnum.modKind i w.state with
        | .error e => .error e
        | .ok s1 =>
          match s1.mods.get? i with
          | none => .error "Index out of range."
          | some m =>
            let s2 := { s1 with mods := s1.mods.eraseIdx i }
            let fs1 := rmtreeFS w.fs m.location
            let cr := commit g s2 fs1
            let w1 := { w with state := cr.state, fs := cr.fs,
                               confLines := some cr.modLines,
                               pluginLines := some cr.pluginLines }
            match commitWarn cr with
            | some msg => .error msg
            | none => .ok w1
    | DeleteEnum.downloadKind =>
      match index with
      | .all =>
        let removed := w.state.downloads.filter (·.visible)
        let s1 := { w.state with
          downloads := w.state.downloads.filter (fun d => !d.visible) }
        let fs1 := removed.foldl (fun fs d => fs.filter (fun e => e.1 != d.location)) w.fs
        .ok { w with state := s1, fs := fs1 }
      | .num i =>
        match w.state.downloads.get? i with
        | none => .error "Index out of range."
        | some d =>
          .ok { w with
            state := { w.state with downloads := w.state.downloads.eraseIdx i },
            fs := w.fs.filter (fun e => e.1 != d.location) }

/-- rename o g c index name w : ModController.rename (lines 452-503); the
guard is the first statement, then the name-character validation written as in
the source (the name equals itself filtered to alphanumerics/underscores). -/
def rename (o : Oracles) (g : Game) (c : DeleteEnum) (index : Nat)
    (name : String) (w : World) : Except String World :=
  if w.state.changes then
    .error "You must `commit` changes before renaming."
  else if name ≠ ⟨name.data.filter (fun ch => ch.isAlphanum || ch == '_')⟩ then
    .error "Names can only contain alphanumeric characters or underscores"
  else
    match c with
    | DeleteEnum.downloadKind =>
      match w.state.downloads.get? index with
      | none => .error "Index out of range."
      | some d =>
        let s1 := { w.state with downloads := w.state.downloads.eraseIdx index }
        let new_location :=
          (osPathSplit d.location).1 ++ "/" ++ name ++ pySuffix d.location
        let fs1 := renamePathFS w.fs d.location new_location
        refresh o g { w with state := s1, fs := fs1 }
    | DeleteEnum.modKind =>
      match w.state.mods.get? index with
      | none => .error "Index out of range."
      | some m =>
        let new_location := g.ammo_mods_dir ++ "/" ++ name
        if fsExists w.fs new_location || isDirIn w.fs new_location then
          .error ("A mod named " ++ new_location ++ " already exists!")
        else
          let fs1 := clean_data_dir g w.fs
          let fs2 := renamePathFS fs1 m.location new_location
          let m1 := o.rescanMod { m with location := new_location, name := name } fs2
          let s1 := { w.state with mods := w.state.mods.set index m1 }
          let cr := commit g s1 fs2
          let w1 := { w with state := cr.state, fs := cr.fs,
                             confLines := some cr.modLines,
                             pluginLines := some cr.pluginLines }
          match commitWarn cr with
          | some msg => .error msg
          | none => .ok w1

/-- configure o g index w : ModController.configure (lines 356-402); the guard
is the first statement.  Deactivate the target, commit, refresh, wipe its
previous generated Data tree, run the external wizard, refresh again. -/
def configure (o : Oracles) (g : Game) (index : Nat) (w : World) :
    Except String World :=
  if w.state.changes then
    .error "You must `commit` changes before configuring a fomod."
  else
    match w.state.mods.get? index with
    | none => .error "No mod at that index."
    | some m =>
      if !m.fomod then .error "Only fomods can be configured."
      else
        match deactivate ComponentEnum.modKind index w.state with
        | .error e => .error e
        | .ok s1 =>
          let cr := commit g s1 w.fs
          let w1 := { w with state := cr.state, fs := cr.fs,
                             confLines := some cr.modLines,
                             pluginLines := some cr.pluginLines }
          match commitWarn cr with
          | some msg => .error msg
          | none =>
            let w2 := reload o g w1
            let w3 := { w2 with fs := rmtreeFS w2.fs (m.location ++ "/Data") }
            let w4 := { w3 with fs := o.wizard m w3.fs }
            .ok (reload o g w4)

/-! ## Claim-side notions

Definitions phrasing what the specification claims, to be compared against
the embedded operations. -/

/-- conflictWinner mods n : the highest-priority (last in list order)
currently-enabled mod whose plugin set contains n. -/
def conflictWinner (mods : List Mod) (n : String) : Option Mod :=
  (mods.filter fun m => m.enabled && m.plugins.contains n).getLast?

/-- claimedParentOf mods n : the parent the specification claims a managed
plugin named n has: the conflict winner, or a synthetic DLC stand-in when no
enabled mod provides the name. -/
def claimedParentOf (mods : List Mod) (n : String) : ParentRef :=
  match conflictWinner mods n with
  | some m => ParentRef.modOf m.name
  | none => ParentRef.dlcOf n

/-- parentsAreConflictWinners s : every managed plugin's parent is what the
specification claims it is. -/
def parentsAreConflictWinners (s : AmmoState) : Bool :=
  s.plugins.all fun p => p.parent_ref == claimedParentOf s.mods p.name

/-- nameInPlugins s n : some managed plugin is named n. -/
def nameInPlugins (s : AmmoState) (n : String) : Prop :=
  ∃ p ∈ s.plugins, p.name = n

/-- nameInEnabledUnion mods n : some currently-enabled mod provides plugin
name n. -/
def nameInEnabledUnion (mods : List Mod) (n : String) : Prop :=
  ∃ m ∈ mods, m.enabled = true ∧ n ∈ m.plugins

/-- pluginsMatchEnabledUnion s : the managed plugin names are exactly the
union of the plugin names provided by the currently-enabled mods. -/
def pluginsMatchEnabledUnion (s : AmmoState) : Prop :=
  ∀ n : String, nameInPlugins s n ↔ nameInEnabledUnion s.mods n

/-- parentProvides s : every managed plugin's parent refers to some managed
mod that provides its name (the mod whose activation inserted it — not
necessarily enabled or the conflict winner now). -/
def parentProvides (s : AmmoState) : Prop :=
  ∀ p ∈ s.plugins, ∃ m ∈ s.mods,
    p.parent_ref = ParentRef.modOf m.name ∧ p.name ∈ m.plugins

/-- uniformPluginFiles mods : plugin names are classified uniformly: a name
that is some mod's plugin occurs among a mod's file names exactly when it is
in that mod's plugin set.  (The deactivation logic tests file names where the
specification speaks of provided plugins; this hypothesis makes the two
agree, as they do for mods whose plugin files were scanned into both.) -/
def uniformPluginFiles (mods : List Mod) : Prop :=
  ∀ m ∈ mods, ∀ m' ∈ mods, ∀ n ∈ m'.plugins, (n ∈ m.fileNames ↔ n ∈ m.plugins)

/-- runModOps ops s : a sequence of activate/deactivate operations applied to
Mods, each op a (desired-state, index) pair; a raised Warning leaves the state
unchanged, exactly as in the REPL. -/
def runModOps (ops : List (Bool × Nat)) (s : AmmoState) : AmmoState :=
  ops.foldl
    (fun st op =>
      match set_component_state ComponentEnum.modKind op.2 op.1 st with
      | .ok st' => st'
      | .error _ => st)
    s

/-- componentEnabled c i s : the enabled flag of the component the pair
(c, i) targets, when the index is valid. -/
def componentEnabled (c : ComponentEnum) (i : Nat) (s : AmmoState) :
    Option Bool :=
  match c with
  | ComponentEnum.modKind => (s.mods.get? i).map Mod.enabled
  | ComponentEnum.pluginKind => (s.plugins.get? i).map Plugin.enabled

/-- componentsLen c s : the length of the component list (c, s) targets. -/
def componentsLen (c : ComponentEnum) (s : AmmoState) : Nat :=
  match c with
  | ComponentEnum.modKind => s.mods.length
  | ComponentEnum.pluginKind => s.plugins.length

/-! ## Lemmas about move -/

lemma moveList_self {α : Type} (l : List α) (i : Nat) :
    moveList l i i = .ok (l, false) := by
  simp [moveList]

lemma moveList_oob {α : Type} (l : List α) (i j : Nat) (hij : i ≠ j)
    (hi : l.length ≤ i) : moveList l i j = .error "Index out of range." := by
  simp only [moveList, if_neg hij]
  by_cases h : i > l.length - 1
  · simp [h]
  · have hl : l.length = 0 := by omega
    have hi0 : i = 0 := by omega
    subst hi0
    have hnil : l = [] := List.eq_nil_of_length_eq_zero hl
    subst hnil
    simp at h
    simp [h]

lemma moveList_changed {α : Type} (l : List α) (i j : Nat)
    (pr : List α × Bool) (hij : i ≠ j) (h : moveList l i j = .ok pr) :
    pr.2 = true := by
  simp only [moveList, if_neg hij] at h
  by_cases hb : i > l.length - 1
  · rw [if_pos hb] at h; cases h
  · rw [if_neg hb] at h
    cases hg : l.get? i with
    | none => rw [hg] at h; cases h
    | some x => rw [hg] at h; cases h; rfl

lemma moveList_clamp {α : Type} (l : List α) (i j : Nat) (x : α)
    (hx : l.get? i = some x) (hj : l.length ≤ j) (hij : i ≠ j) :
    moveList l i j = .ok ((l.eraseIdx i).insertIdx (l.length - 1) x, true) := by
  have hi : i < l.length := by
    by_contra hc
    rw [List.get?_eq_none.mpr (by omega)] at hx
    cases hx
  simp only [moveList, if_neg hij]
  rw [if_neg (by omega : ¬ i > l.length - 1), hx]
  rw [if_pos (by omega : j > l.length - 1)]

/-- C8: move(kind, i, j) with i = j is a no-op that neither reorders nor sets
the changes flag; a destination index beyond the last valid index is clamped
to it without error; an out-of-range source index yields an error before any
mutation (the functional result is the error alone, the input state is
untouched); and every successful move with i different from j sets the changes
flag. -/
theorem c8_move_contract :
    (∀ (c : ComponentEnum) (s : AmmoState) (i : Nat), move c i i s = .ok s)
  ∧ (∀ (c : ComponentEnum) (s : AmmoState) (i j : Nat), i ≠ j →
      componentsLen c s ≤ i → move c i j s = .error "Index out of range.")
  ∧ (∀ {α : Type} (l : List α) (i j : Nat) (x : α), l.get? i = some x →
      l.length ≤ j → i ≠ j →
      moveList l i j = .ok ((l.eraseIdx i).insertIdx (l.length - 1) x, true))
  ∧ (∀ (c : ComponentEnum) (s s' : AmmoState) (i j : Nat), i ≠ j →
      move c i j s = .ok s' → s'.changes = true) := by
  refine ⟨?_, ?_, ?_, ?_⟩
  · intro c s i
    cases c <;> simp [move, moveList_self]
  · intro c s i j hij hlen
    cases c <;> simp only [move] <;>
      rw [moveList_oob _ _ _ hij (by simpa [componentsLen] using hlen)]
  · intro α l i j x hx hj hij
    exact moveList_clamp l i j x hx hj hij
  · intro c s s' i j hij h
    cases c with
    | modKind =>
      simp only [move] at h
      cases hml : moveList s.mods i j with
      | error e => rw [hml] at h; cases h
      | ok pr =>
        rw [hml] at h
        have hch := moveList_changed _ _ _ _ hij hml
        cases h
        simp [hch]
    | pluginKind =>
      simp only [move] at h
      cases hml : moveList s.plugins i j with
      | error e => rw [hml] at h; cases h
      | ok pr =>
        rw [hml] at h
        have hch := moveList_changed _ _ _ _ hij hml
        cases h
        simp [hch]

/-- c8m1, c8m2, c8demo, c8after : a tiny concrete two-mod state and the result
of moving the first mod after the second. -/
def c8m1 : Mod :=
  { name := "alpha", location := "/ammo/mods/alpha", parent_data_dir := "/game/Data" }

def c8m2 : Mod :=
  { name := "beta", location := "/ammo/mods/beta", parent_data_dir := "/game/Data" }

def c8demo : AmmoState := { mods := [c8m1, c8m2] }

def c8after : AmmoState := { c8demo with mods := [c8m2, c8m1], changes := true }

/-- C8 witness: the contract applied at concrete inputs. -/
theorem c8_move_contract_witness :
    (move ComponentEnum.modKind 1 1 c8demo = .ok c8demo)
  ∧ (move ComponentEnum.pluginKind 3 0 c8demo = .error "Index out of range.")
  ∧ (moveList [10, 20] 0 5 = .ok (([10, 20].eraseIdx 0).insertIdx 1 10, true))
  ∧ c8after.changes = true := by
  refine ⟨c8_move_contract.1 ComponentEnum.modKind c8demo 1,
    c8_move_contract.2.1 ComponentEnum.pluginKind c8demo 3 0 (by decide)
      (by simp [componentsLen, c8demo]),
    ?_, ?_⟩
  · exact c8_move_contract.2.2.1 [10, 20] 0 5 10 rfl (by decide) (by decide)
  · exact c8_move_contract.2.2.2 ComponentEnum.modKind c8demo c8after 0 1
      (by decide) (by rfl)

/-- C10: after a single-component activate or deactivate that completes
without error, the changes flag equals whether the call changed the target's
enabled flag — `self.changes` is assigned, not or-ed, so a no-change call
resets a previously set flag. -/
theorem c10_changes_tracks_target (c : ComponentEnum) (i : Nat) (st : Bool)
    (s s' : AmmoState) (b : Bool)
    (hb : componentEnabled c i s = some b)
    (h : (if st then activate c i s else deactivate c i s) = .ok s') :
    s'.changes = (b != st) := by
  have h' : set_component_state c i st s = .ok s' := by
    cases st <;> simpa [activate, deactivate] using h
  cases c with
  | pluginKind =>
    simp only [componentEnabled] at hb
    simp only [set_component_state] at h'
    cases hg : s.plugins.get? i with
    | none => rw [hg] at h'; cases h'
    | some subject =>
      rw [hg] at h' hb
      simp at hb
      cases h'
      simp [hb]
  | modKind =>
    simp only [componentEnabled] at hb
    simp only [set_component_state] at h'
    cases hg : s.mods.get? i with
    | none => rw [hg] at h'; cases h'
    | some subject =>
      rw [hg] at h' hb
      dsimp only at h'
      simp at hb
      by_cases hf : (subject.fomod && st && !subject.has_data_dir) = true
      · rw [if_pos hf] at h'; cases h'
      · rw [if_neg hf] at h'
        by_cases hst : st = true
        · subst hst
          rw [if_pos rfl] at h'
          cases h'
          simp [hb]
        · have hst' : st = false := by revert hst; cases st <;> simp
          subst hst'
          simp only [if_neg (by simp : ¬ (false = true))] at h'
          cases h'
          simp [hb]

/-- c10base, c10res : a state with a pending change and an already-enabled
plugin, and the result of re-activating that plugin. -/
def c10plugin : Plugin :=
  { name := "p.esp", enabled := true, parent_ref := ParentRef.dlcOf "p.esp" }

def c10base : AmmoState := { changes := true, plugins := [c10plugin] }

def c10res : AmmoState := { c10base with plugins := [c10plugin], changes := false }

/-- C10 witness: activating the already-enabled plugin of c10base (whose
changes flag is set) resets the flag: the changed-ness comparison evaluates to
false. -/
theorem c10_changes_tracks_target_witness :
    c10base.changes = true ∧ c10res.changes = (true != true) := by
  refine ⟨rfl, ?_⟩
  exact c10_changes_tracks_target ComponentEnum.pluginKind 0 true c10base c10res
    true rfl (by rfl)

/-! ## C9: the reserved keyword find filters -/

/-- c9state : one mod (enabled, providing someplug.esp), one managed plugin,
one download; none of the names contains the substring "plugins". -/
def c9mod : Mod :=
  { name := "somemod", location := "/ammo/mods/somemod",
    parent_data_dir := "/game/Data", enabled := true,
    files := [("someplug.esp", "/ammo/mods/somemod/Data/someplug.esp")],
    plugins := ["someplug.esp"] }

def c9plugin : Plugin :=
  { name := "someplug.esp", enabled := true,
    parent_ref := ParentRef.modOf "somemod" }

def c9download : Download :=
  { name := "other.7z", location := "/downloads/other.7z" }

def c9state : AmmoState :=
  { mods := [c9mod], plugins := [c9plugin], downloads := [c9download] }

/-- C9: find with the single reserved keyword "plugins" — contrary to the
claim that exactly the plugins become visible — leaves the mod visible and
the plugin invisible (the source's plugins branch re-shows self.mods instead
of self.plugins); the "downloads" and "mods" keywords do behave as claimed on
this state. -/
theorem c9_find_reserved_keywords :
    ((find ["plugins"] c9state).mods.map Mod.visible = [true]
      ∧ (find ["plugins"] c9state).plugins.map Plugin.visible = [false]
      ∧ (find ["plugins"] c9state).downloads.map Download.visible = [false])
  ∧ ((find ["mods"] c9state).mods.map Mod.visible = [true]
      ∧ (find ["mods"] c9state).plugins.map Plugin.visible = [false]
      ∧ (find ["mods"] c9state).downloads.map Download.visible = [false])
  ∧ ((find ["downloads"] c9state).mods.map Mod.visible = [false]
      ∧ (find ["downloads"] c9state).plugins.map Plugin.visible = [false]
      ∧ (find ["downloads"] c9state).downloads.map Download.visible = [true]) := by
  decide

/-! ## C5: Mod.files_in_place -/

/-- c5mod, c5fs : a mod recording one file, and a filesystem where the game
data directory exists but the recorded file's path under it does not. -/
def c5mod : Mod :=
  { name := "MyMod", location := "/ammo/mods/MyMod",
    parent_data_dir := "/game/Data",
    files := [("p.esp", "/ammo/mods/MyMod/Data/p.esp")],
    plugins := ["p.esp"] }

def c5fs : FS := [("/game/Data", FSEntry.dir)]

/-- C5: files_in_place returns true although the recorded file's path relative
to the game data root is missing: the source passes the arguments of
os.path.join in the order (relative-path, data-root), and a join whose second
argument is absolute discards the first, so the check only tests that the data
directory itself exists.  filesInPlaceSpec is the check the specification
describes, and it returns false here. -/
theorem c5_files_in_place_degenerate :
    Mod.files_in_place c5fs c5mod = true
  ∧ filesInPlaceSpec c5fs c5mod = false
  ∧ pyJoin (pyStripChar (pySplitOnceTail "/ammo/mods/MyMod/Data/p.esp" "MyMod") '/')
      "/game/Data" = "/game/Data" := by
  decide

/-! ## C1 and C2: a shared two-provider scenario -/

/-- c1a, c1b : two mods each providing the plugin p.esp, A before B in mod
order.  c1start : both disabled, no managed plugins. -/
def c1a : Mod :=
  { name := "A", location := "/ammo/mods/A", parent_data_dir := "/game/Data",
    has_data_dir := true,
    files := [("p.esp", "/ammo/mods/A/Data/p.esp")], plugins := ["p.esp"] }

def c1b : Mod :=
  { name := "B", location := "/ammo/mods/B", parent_data_dir := "/game/Data",
    has_data_dir := true,
    files := [("p.esp", "/ammo/mods/B/Data/p.esp")], plugins := ["p.esp"] }

def c1start : AmmoState := { mods := [c1a, c1b] }

def c1s1 : AmmoState :=
  { c1start with
    mods := [{ c1a with enabled := true }, c1b],
    plugins := [{ name := "p.esp", enabled := false,
                  parent_ref := ParentRef.modOf "A" }],
    changes := true }

def c1s2 : AmmoState :=
  { c1s1 with
    mods := [{ c1a with enabled := true }, { c1b with enabled := true }] }

/-- C1 counterexample: activating A then B (both providing p.esp) succeeds and
leaves the single managed plugin parented to A, while the claim demands the
highest-priority enabled provider B; the conflict winner for p.esp in the
final state is B, so the claimed invariant is false after this two-operation
sequence. -/
theorem c1_counterexample :
    activate ComponentEnum.modKind 0 c1start = Except.ok c1s1
  ∧ activate ComponentEnum.modKind 1 c1s1 = Except.ok c1s2
  ∧ parentsAreConflictWinners c1s2 = false
  ∧ claimedParentOf c1s2.mods "p.esp" = ParentRef.modOf "B"
  ∧ c1s2.plugins.map Plugin.parent_ref = [ParentRef.modOf "A"] := by
  refine ⟨rfl, rfl, by decide, by decide, by decide⟩

/-- c2start, c2end : both providers enabled, the managed plugin parented to
the conflict winner B; deactivating B keeps the plugin with its parent still
B (now disabled) although the remaining enabled provider is A. -/
def c2start : AmmoState :=
  { mods := [{ c1a with enabled := true }, { c1b with enabled := true }],
    plugins := [{ name := "p.esp", enabled := true,
                  parent_ref := ParentRef.modOf "B" }] }

def c2end : AmmoState :=
  { c2start with
    mods := [{ c1a with enabled := true }, { c1b with enabled := false }],
    changes := true }

/-- C2 counterexample: deactivating B keeps p.esp in the managed list — but
its parent is not re-assigned to the remaining enabled provider A as the
claim states; it still refers to the now-disabled B. -/
theorem c2_counterexample :
    deactivate ComponentEnum.modKind 1 c2start = Except.ok c2end
  ∧ c2end.plugins.map Plugin.parent_ref = [ParentRef.modOf "B"]
  ∧ (c2end.mods.filter (fun m =>
      m.enabled && m.fileNames.contains "p.esp")).map Mod.name = ["A"] := by
  refine ⟨rfl, by decide, by decide⟩

/-! ## List lemmas for the activation-engine invariants -/

lemma mem_of_get?_eq_some {α : Type} {l : List α} {i : Nat} {a : α}
    (h : l.get? i = some a) : a ∈ l := by
  induction l generalizing i with
  | nil => cases h
  | cons z zs ih =>
    cases i with
    | zero => cases h; exact List.mem_cons_self _ _
    | succ j => exact List.mem_cons_of_mem _ (ih h)

lemma mem_set_self_of_get? {α : Type} {l : List α} {i : Nat} {a : α} (b : α)
    (h : l.get? i = some a) : b ∈ l.set i b := by
  induction l generalizing i with
  | nil => cases h
  | cons z zs ih =>
    cases i with
    | zero => exact List.mem_cons_self _ _
    | succ j => exact List.mem_cons_of_mem _ (ih h)

lemma exists_mem_set_iff {α : Type} {l : List α} {i : Nat} {a : α} (b : α)
    (P : α → Prop) (h : l.get? i = some a) :
    (∃ x ∈ l.set i b, P x) ↔ (P b ∨ ∃ x ∈ l.eraseIdx i, P x) := by
  induction l generalizing i with
  | nil => cases h
  | cons z zs ih =>
    cases i with
    | zero =>
      cases h
      simp only [List.set, List.eraseIdx, List.mem_cons]
      constructor
      · rintro ⟨x, hx | hx, hP⟩
        · exact Or.inl (hx ▸ hP)
        · exact Or.inr ⟨x, hx, hP⟩
      · rintro (hP | ⟨x, hx, hP⟩)
        · exact ⟨b, Or.inl rfl, hP⟩
        · exact ⟨x, Or.inr hx, hP⟩
    | succ j =>
      simp only [List.set, List.eraseIdx, List.mem_cons]
      have := ih (i := j) h
      constructor
      · rintro ⟨x, hx | hx, hP⟩
        · exact Or.inr ⟨x, Or.inl hx, hP⟩
        · rcases this.mp ⟨x, hx, hP⟩ with hPb | ⟨y, hy, hPy⟩
          · exact Or.inl hPb
          · exact Or.inr ⟨y, Or.inr hy, hPy⟩
      · rintro (hPb | ⟨y, hy | hy, hPy⟩)
        · rcases this.mpr (Or.inl hPb) with ⟨x, hx, hP⟩
          exact ⟨x, Or.inr hx, hP⟩
        · exact ⟨y, Or.inl hy, hy ▸ hPy⟩
        · rcases this.mpr (Or.inr ⟨y, hy, hPy⟩) with ⟨x, hx, hP⟩
          exact ⟨x, Or.inr hx, hP⟩

lemma exists_mem_iff_eraseIdx {α : Type} {l : List α} {i : Nat} {a : α}
    (P : α → Prop) (h : l.get? i = some a) :
    (∃ x ∈ l, P x) ↔ (P a ∨ ∃ x ∈ l.eraseIdx i, P x) := by
  induction l generalizing i with
  | nil => cases h
  | cons z zs ih =>
    cases i with
    | zero =>
      cases h
      simp only [List.eraseIdx, List.mem_cons]
      constructor
      · rintro ⟨x, hx | hx, hP⟩
        · exact Or.inl (hx ▸ hP)
        · exact Or.inr ⟨x, hx, hP⟩
      · rintro (hP | ⟨x, hx, hP⟩)
        · exact ⟨a, Or.inl rfl, hP⟩
        · exact ⟨x, Or.inr hx, hP⟩
    | succ j =>
      simp only [List.eraseIdx, List.mem_cons]
      have := ih (i := j) h
      constructor
      · rintro ⟨x, hx | hx, hP⟩
        · exact Or.inr ⟨x, Or.inl hx, hP⟩
        · rcases this.mp ⟨x, hx, hP⟩ with hPa | ⟨y, hy, hPy⟩
          · exact Or.inl hPa
          · exact Or.inr ⟨y, Or.inr hy, hPy⟩
      · rintro (hPa | ⟨y, hy | hy, hPy⟩)
        · rcases this.mpr (Or.inl hPa) with ⟨x, hx, hP⟩
          exact ⟨x, Or.inr hx, hP⟩
        · exact ⟨y, Or.inl hy, hPy⟩
        · rcases this.mpr (Or.inr ⟨y, hy, hPy⟩) with ⟨x, hx, hP⟩
          exact ⟨x, Or.inr hx, hP⟩

lemma mem_of_mem_eraseIdx {α : Type} {l : List α} {i : Nat} {x : α}
    (h : x ∈ l.eraseIdx i) : x ∈ l := by
  induction l generalizing i with
  | nil => simp [List.eraseIdx] at h
  | cons z zs ih =>
    cases i with
    | zero => exact List.mem_cons_of_mem _ h
    | succ j =>
      rcases List.mem_cons.mp h with hz | hz
      · exact hz ▸ List.mem_cons_self _ _
      · exact List.mem_cons_of_mem _ (ih hz)

lemma name_ne_of_mem_eraseIdx {α β : Type} (f : α → β) {l : List α} {i : Nat}
    {a : α} (h : l.get? i = some a) (hnd : (l.map f).Nodup) :
    ∀ b ∈ l.eraseIdx i, f b ≠ f a := by
  induction l generalizing i with
  | nil => cases h
  | cons z zs ih =>
    simp only [List.map_cons, List.nodup_cons] at hnd
    cases i with
    | zero =>
      cases h
      intro b hb
      exact fun hfb => hnd.1 (hfb ▸ List.mem_map_of_mem f hb)
    | succ j =>
      intro b hb
      rcases List.mem_cons.mp hb with hz | hz
      · subst hz
        intro hfb
        exact hnd.1 (hfb ▸ List.mem_map_of_mem f (mem_of_get?_eq_some h))
      · exact ih h hnd.2 b hz

lemma contains_iff_mem {l : List String} {a : String} :
    l.contains a = true ↔ a ∈ l :=
  List.elem_iff

lemma mem_set_shape {l : List Mod} {i : Nat} {a : Mod} (st : Bool)
    (h : l.get? i = some a) {x : Mod} (hx : x ∈ l) :
    ∃ y ∈ l.set i { a with enabled := st },
      y.name = x.name ∧ y.plugins = x.plugins := by
  induction l generalizing i with
  | nil => cases h
  | cons z zs ih =>
    cases i with
    | zero =>
      cases h
      rcases List.mem_cons.mp hx with hz | hz
      · exact ⟨{ a with enabled := st }, List.mem_cons_self _ _, by
          subst hz; exact ⟨rfl, rfl⟩⟩
      · exact ⟨x, List.mem_cons_of_mem _ hz, rfl, rfl⟩
    | succ j =>
      rcases List.mem_cons.mp hx with hz | hz
      · exact ⟨z, List.mem_cons_self _ _, by subst hz; exact ⟨rfl, rfl⟩⟩
      · rcases ih h hz with ⟨y, hy, hyx⟩
        exact ⟨y, List.mem_cons_of_mem _ hy, hyx⟩

lemma map_name_set {l : List Mod} {i : Nat} {a : Mod} (st : Bool)
    (h : l.get? i = some a) :
    (l.set i { a with enabled := st }).map Mod.name = l.map Mod.name := by
  induction l generalizing i with
  | nil => cases h
  | cons z zs ih =>
    cases i with
    | zero => cases h; simp
    | succ j => simpa using ih h

lemma uniform_set {mods : List Mod} {i : Nat} {subject : Mod} (st : Bool)
    (h : mods.get? i = some subject) (hu : uniformPluginFiles mods) :
    uniformPluginFiles (mods.set i { subject with enabled := st }) := by
  intro m hm m' hm' n hn
  have hsub := mem_of_get?_eq_some h
  rcases List.mem_or_eq_of_mem_set hm with hm0 | hm0 <;>
    rcases List.mem_or_eq_of_mem_set hm' with hm1 | hm1
  · exact hu m hm0 m' hm1 n hn
  · exact hu m hm0 subject hsub n (by rw [hm1] at hn; exact hn)
  · subst hm0; exact hu subject hsub m' hm1 n hn
  · subst hm0; exact hu subject hsub subject hsub n (by rw [hm1] at hn; exact hn)

lemma providedElsewhere_set_same {mods : List Mod} {i : Nat} {subject : Mod}
    (st : Bool) (n : String) (h : mods.get? i = some subject) :
    providedElsewhere (mods.set i { subject with enabled := st }) subject.name n
      = providedElsewhere mods subject.name n := by
  induction mods generalizing i with
  | nil => cases h
  | cons z zs ih =>
    cases i with
    | zero =>
      cases h
      simp [providedElsewhere, List.any_cons, Mod.fileNames]
    | succ j =>
      simp only [List.set, providedElsewhere, List.any_cons]
      rw [show (zs.set j { subject with enabled := st }).any
        (fun m => m.name != subject.name && m.enabled && m.fileNames.contains n)
        = zs.any (fun m => m.name != subject.name && m.enabled && m.fileNames.contains n)
        from ih h]

lemma providedElsewhere_iff_erase {mods : List Mod} {i : Nat} {subject : Mod}
    (n : String) (h : mods.get? i = some subject)
    (hnd : (mods.map Mod.name).Nodup) :
    providedElsewhere mods subject.name n = true
      ↔ ∃ x ∈ mods.eraseIdx i, x.enabled = true ∧ n ∈ x.fileNames := by
  simp only [providedElsewhere, List.any_eq_true]
  rw [exists_mem_iff_eraseIdx
    (fun m => (m.name != subject.name && m.enabled && m.fileNames.contains n) = true) h]
  constructor
  · rintro (hs | ⟨x, hx, hP⟩)
    · simp at hs
    · refine ⟨x, hx, ?_⟩
      simp only [Bool.and_eq_true, bne_iff_ne] at hP
      exact ⟨hP.1.2, contains_iff_mem.mp hP.2⟩
  · rintro ⟨x, hx, hen, hmem⟩
    refine Or.inr ⟨x, hx, ?_⟩
    simp only [Bool.and_eq_true, bne_iff_ne]
    exact ⟨⟨name_ne_of_mem_eraseIdx Mod.name h hnd x hx, hen⟩,
      contains_iff_mem.mpr hmem⟩

lemma addPluginName_names (mname : String) (ps : List Plugin) (m n : String) :
    (∃ p ∈ addPluginName mname ps m, p.name = n)
      ↔ ((∃ p ∈ ps, p.name = n) ∨ n = m) := by
  simp only [addPluginName]
  by_cases hc : ((ps.map Plugin.name).contains m) = true
  · rw [if_pos hc]
    constructor
    · exact fun hp => Or.inl hp
    · rintro (hp | rfl)
      · exact hp
      · rcases List.mem_map.mp (contains_iff_mem.mp hc) with ⟨p, hp, hpn⟩
        exact ⟨p, hp, hpn⟩
  · rw [if_neg hc]
    constructor
    · rintro ⟨p, hp, rfl⟩
      rcases List.mem_append.mp hp with hp | hp
      · exact Or.inl ⟨p, hp, rfl⟩
      · simp only [List.mem_singleton] at hp
        subst hp
        exact Or.inr rfl
    · rintro (⟨p, hp, rfl⟩ | rfl)
      · exact ⟨p, List.mem_append_left _ hp, rfl⟩
      · exact ⟨_, List.mem_append_right _ (List.mem_singleton_self _), rfl⟩

lemma addMissing_names (mname : String) (names : List String)
    (ps : List Plugin) (n : String) :
    (∃ p ∈ names.foldl (addPluginName mname) ps, p.name = n)
      ↔ ((∃ p ∈ ps, p.name = n) ∨ n ∈ names) := by
  induction names generalizing ps with
  | nil => simp
  | cons m rest ih =>
    simp only [List.foldl_cons]
    rw [ih, addPluginName_names]
    simp only [List.mem_cons]
    exact or_assoc

lemma addPluginName_mem (mname : String) (ps : List Plugin) (m : String)
    {q : Plugin} (h : q ∈ addPluginName mname ps m) :
    q ∈ ps ∨ (q.parent_ref = ParentRef.modOf mname ∧ q.name = m) := by
  simp only [addPluginName] at h
  by_cases hc : ((ps.map Plugin.name).contains m) = true
  · rw [if_pos hc] at h
    exact Or.inl h
  · rw [if_neg hc] at h
    rcases List.mem_append.mp h with h | h
    · exact Or.inl h
    · simp only [List.mem_singleton] at h
      subst h
      exact Or.inr ⟨rfl, rfl⟩

lemma addMissing_mem (mname : String) (names : List String) (ps : List Plugin)
    {q : Plugin} (h : q ∈ names.foldl (addPluginName mname) ps) :
    q ∈ ps ∨ (q.parent_ref = ParentRef.modOf mname ∧ q.name ∈ names) := by
  induction names generalizing ps with
  | nil => exact Or.inl h
  | cons m rest ih =>
    simp only [List.foldl_cons] at h
    rcases ih (addPluginName mname ps m) h with h1 | h1
    · rcases addPluginName_mem mname ps m h1 with h2 | h2
      · exact Or.inl h2
      · exact Or.inr ⟨h2.1, h2.2 ▸ List.mem_cons_self _ _⟩
    · exact Or.inr ⟨h1.1, List.mem_cons_of_mem _ h1.2⟩

lemma exists_name_filter (ps : List Plugin) (f : String → Bool) (n : String) :
    (∃ p ∈ ps.filter (fun p => f p.name), p.name = n)
      ↔ ((∃ p ∈ ps, p.name = n) ∧ f n = true) := by
  constructor
  · rintro ⟨p, hp, rfl⟩
    rcases List.mem_filter.mp hp with ⟨hmem, hf⟩
    exact ⟨⟨p, hmem, rfl⟩, hf⟩
  · rintro ⟨⟨p, hp, rfl⟩, hf⟩
    exact ⟨p, List.mem_filter.mpr ⟨hp, hf⟩, rfl⟩

/-- setModState_inv : _set_component_state on a Mod preserves the engine
invariants: uniform plugin/file classification, distinct mod names, plugin
names = union of enabled mods' plugin names, and every plugin parented to a
providing mod. -/
lemma setModState_inv (i : Nat) (st : Bool) (s s' : AmmoState)
    (h : set_component_state ComponentEnum.modKind i st s = .ok s')
    (hu : uniformPluginFiles s.mods) (hnd : (s.mods.map Mod.name).Nodup)
    (hm : pluginsMatchEnabledUnion s) (hp : parentProvides s) :
    uniformPluginFiles s'.mods ∧ (s'.mods.map Mod.name).Nodup ∧
      pluginsMatchEnabledUnion s' ∧ parentProvides s' := by
  simp only [set_component_state] at h
  cases hg : s.mods.get? i with
  | none => rw [hg] at h; cases h
  | some subject =>
    rw [hg] at h
    dsimp only at h
    by_cases hf : (subject.fomod && st && !subject.has_data_dir) = true
    · rw [if_pos hf] at h; cases h
    · rw [if_neg hf] at h
      have hsubmem := mem_of_get?_eq_some hg
      by_cases hst : st = true
      · -- activation branch
        subst hst
        rw [if_pos rfl] at h
        cases h
        refine ⟨uniform_set true hg hu, ?_, ?_, ?_⟩
        · show ((s.mods.set i { subject with enabled := true }).map Mod.name).Nodup
          rw [map_name_set true hg]
          exact hnd
        · intro n
          show nameInPlugins _ n ↔ nameInEnabledUnion _ n
          have hnames : nameInPlugins
              { s with mods := s.mods.set i { subject with enabled := true },
                       plugins := Mod.addMissingPlugins { subject with enabled := true } s.plugins,
                       changes := subject.enabled != true } n
              ↔ (nameInPlugins s n ∨ n ∈ subject.plugins) := by
            unfold nameInPlugins
            exact addMissing_names subject.name subject.plugins s.plugins n
          rw [show (nameInPlugins
              { s with mods := s.mods.set i { subject with enabled := true },
                       plugins := Mod.addMissingPlugins { subject with enabled := true } s.plugins,
                       changes := subject.enabled != true } n) =
              (nameInPlugins s n ∨ n ∈ subject.plugins) from propext hnames]
          unfold nameInEnabledUnion
          rw [exists_mem_set_iff { subject with enabled := true }
            (fun m => m.enabled = true ∧ n ∈ m.plugins) hg]
          have hold := hm n
          unfold nameInEnabledUnion at hold
          rw [exists_mem_iff_eraseIdx
            (fun m => m.enabled = true ∧ n ∈ m.plugins) hg] at hold
          rw [show nameInPlugins s n ↔
            ((subject.enabled = true ∧ n ∈ subject.plugins) ∨
              ∃ x ∈ s.mods.eraseIdx i, x.enabled = true ∧ n ∈ x.plugins) from hold]
          simp only [show ({ subject with enabled := true } : Mod).enabled = true from rfl,
            show ({ subject with enabled := true } : Mod).plugins = subject.plugins from rfl,
            true_and]
          constructor
          · rintro ((⟨_, hpl⟩ | hE) | hpl)
            · exact Or.inl hpl
            · exact Or.inr hE
            · exact Or.inl hpl
          · rintro (hpl | hE)
            · exact Or.inr hpl
            · exact Or.inl (Or.inr hE)
        · intro q hq
          rcases addMissing_mem subject.name subject.plugins s.plugins hq with hq1 | hq1
          · rcases hp q hq1 with ⟨mw, hmw, hpar, hnm⟩
            rcases mem_set_shape true hg hmw with ⟨y, hy, hyname, hyplug⟩
            exact ⟨y, hy, by rw [hpar, hyname], hyplug ▸ hnm⟩
          · refine ⟨{ subject with enabled := true },
              mem_set_self_of_get? _ hg, ?_, hq1.2⟩
            rw [hq1.1]
      · -- deactivation branch
        have hst' : st = false := by revert hst; cases st <;> simp
        subst hst'
        rw [if_neg (by simp)] at h
        cases h
        refine ⟨uniform_set false hg hu, ?_, ?_, ?_⟩
        · show ((s.mods.set i { subject with enabled := false }).map Mod.name).Nodup
          rw [map_name_set false hg]
          exact hnd
        · intro n
          show nameInPlugins _ n ↔ nameInEnabledUnion _ n
          have hPEs : ∀ nm, providedElsewhere
              (s.mods.set i { subject with enabled := false }) subject.name nm
              = providedElsewhere s.mods subject.name nm :=
            fun nm => providedElsewhere_set_same false nm hg
          constructor
          · rintro ⟨p, hpf, rfl⟩
            rcases List.mem_filter.mp hpf with ⟨hpmem, hpred⟩
            have hold := (hm p.name).mp ⟨p, hpmem, rfl⟩
            unfold nameInEnabledUnion at hold
            rw [exists_mem_iff_eraseIdx
              (fun m => m.enabled = true ∧ p.name ∈ m.plugins) hg] at hold
            unfold nameInEnabledUnion
            rw [exists_mem_set_iff { subject with enabled := false }
              (fun m => m.enabled = true ∧ p.name ∈ m.plugins) hg]
            refine Or.inr ?_
            rcases hold with ⟨hsen, hnpl⟩ | hE
            · -- the subject provided it; the filter kept it, so it is provided elsewhere
              have hcontains : (Mod.fileNames { subject with enabled := false }).contains p.name = true := by
                apply contains_iff_mem.mpr
                exact (hu subject hsubmem subject hsubmem p.name hnpl).mpr hnpl
              rw [hcontains] at hpred
              simp only [Bool.true_and, Bool.not_not] at hpred
              rw [hPEs p.name] at hpred
              rcases (providedElsewhere_iff_erase p.name hg hnd).mp hpred with
                ⟨x, hx, hen, hfn⟩
              exact ⟨x, hx, hen,
                (hu x (mem_of_mem_eraseIdx hx) subject hsubmem p.name hnpl).mp hfn⟩
            · exact hE
          · intro hun
            unfold nameInEnabledUnion at hun
            rw [exists_mem_set_iff { subject with enabled := false }
              (fun m => m.enabled = true ∧ n ∈ m.plugins) hg] at hun
            rcases hun with hdead | ⟨x, hxe, hen, hxpl⟩
            · exact absurd hdead.1 (by simp)
            · have hinold : nameInEnabledUnion s.mods n :=
                ⟨x, mem_of_mem_eraseIdx hxe, hen, hxpl⟩
              rcases (hm n).mpr hinold with ⟨p, hpmem, hpname⟩
              refine ⟨p, List.mem_filter.mpr ⟨hpmem, ?_⟩, hpname⟩
              rw [hpname]
              by_cases hc : (Mod.fileNames { subject with enabled := false }).contains n = true
              · have hPE : providedElsewhere s.mods subject.name n = true := by
                  apply (providedElsewhere_iff_erase n hg hnd).mpr
                  exact ⟨x, hxe, hen,
                    (hu x (mem_of_mem_eraseIdx hxe) x (mem_of_mem_eraseIdx hxe) n hxpl).mpr hxpl⟩
                rw [hc, hPEs n, hPE]
                simp
              · rw [Bool.not_eq_true] at hc
                rw [hc]
                simp
        · intro q hq
          have hq1 := List.mem_of_mem_filter hq
          rcases hp q hq1 with ⟨mw, hmw, hpar, hnm⟩
          rcases mem_set_shape false hg hmw with ⟨y, hy, hyname, hyplug⟩
          exact ⟨y, hy, by rw [hpar, hyname], hyplug ▸ hnm⟩

instance uniformPluginFiles.instDecidable (mods : List Mod) :
    Decidable (uniformPluginFiles mods) := by
  unfold uniformPluginFiles
  infer_instance

/-- runModOps_inv : the four engine invariants hold after any sequence of
mod activate/deactivate operations. -/
lemma runModOps_inv (ops : List (Bool × Nat)) (s : AmmoState)
    (hu : uniformPluginFiles s.mods) (hnd : (s.mods.map Mod.name).Nodup)
    (hm : pluginsMatchEnabledUnion s) (hp : parentProvides s) :
    uniformPluginFiles (runModOps ops s).mods ∧
      ((runModOps ops s).mods.map Mod.name).Nodup ∧
      pluginsMatchEnabledUnion (runModOps ops s) ∧
      parentProvides (runModOps ops s) := by
  induction ops generalizing s with
  | nil => exact ⟨hu, hnd, hm, hp⟩
  | cons op rest ih =>
    simp only [runModOps, List.foldl_cons]
    cases hstep : set_component_state ComponentEnum.modKind op.2 op.1 s with
    | error e =>
      exact ih s hu hnd hm hp
    | ok s1 =>
      rcases setModState_inv op.2 op.1 s s1 hstep hu hnd hm hp with
        ⟨h1, h2, h3, h4⟩
      exact ih s1 h1 h2 h3 h4

/-- C1 (amended): for every sequence of mod activate/deactivate operations,
starting from a consistent state whose mods have uniformly classified plugin
files and distinct names, the managed plugin list contains exactly the union
of the plugin names provided by the currently-enabled mods, and each plugin's
parent is some mod providing its name — namely the mod whose activation
inserted it, which need not be the highest-priority enabled provider (and may
even be disabled by a later operation); parents are never re-assigned. -/
theorem c1_amended_union_and_insertion_parent (ops : List (Bool × Nat))
    (s : AmmoState)
    (hu : uniformPluginFiles s.mods) (hnd : (s.mods.map Mod.name).Nodup)
    (hm : pluginsMatchEnabledUnion s) (hp : parentProvides s) :
    pluginsMatchEnabledUnion (runModOps ops s) ∧
      parentProvides (runModOps ops s) := by
  rcases runModOps_inv ops s hu hnd hm hp with ⟨_, _, h3, h4⟩
  exact ⟨h3, h4⟩

/-- C1 witness: the amended statement applied to the two-provider state with
the sequence from the counterexample. -/
theorem c1_amended_witness :
    pluginsMatchEnabledUnion (runModOps [(true, 0), (true, 1)] c1start) ∧
      parentProvides (runModOps [(true, 0), (true, 1)] c1start) :=
  c1_amended_union_and_insertion_parent [(true, 0), (true, 1)] c1start
    (by decide) (by decide)
    (fun n => by
      simp [nameInPlugins, nameInEnabledUnion, c1start, c1a, c1b])
    (fun q hq => by simp [c1start] at hq)

/-- C2 (amended): deactivating the mod at index i removes each plugin
associated with it (by file name) unless some other currently-enabled mod
also provides a file of that name, in which case the plugin stays in the
managed list as the very same record — in particular its parent is NOT
re-assigned to the remaining provider (re-assignment happens only on a later
reload); plugins not associated with the mod are untouched, and nothing is
added. -/
theorem c2_deactivate_shared_provider (s : AmmoState) (i : Nat) (m : Mod)
    (s' : AmmoState) (hgm : s.mods.get? i = some m)
    (h : deactivate ComponentEnum.modKind i s = .ok s') :
    (∀ q ∈ s'.plugins, q ∈ s.plugins)
  ∧ (∀ p ∈ s.plugins,
      (p ∈ s'.plugins ↔
        (p.name ∉ m.fileNames ∨
          ∃ m' ∈ s.mods, m'.name ≠ m.name ∧ m'.enabled = true ∧
            p.name ∈ m'.fileNames))) := by
  simp only [deactivate, set_component_state] at h
  rw [hgm] at h
  dsimp only at h
  rw [if_neg (by simp)] at h
  rw [if_neg (by simp)] at h
  cases h
  have hfn : Mod.fileNames { m with enabled := false } = m.fileNames := rfl
  have hnm : ({ m with enabled := false } : Mod).name = m.name := rfl
  constructor
  · intro q hq
    exact List.mem_of_mem_filter hq
  · intro p hpmem
    constructor
    · intro hpf
      have hpred := (List.mem_filter.mp hpf).2
      rw [hfn, hnm, providedElsewhere_set_same false p.name hgm] at hpred
      by_cases hc : m.fileNames.contains p.name = true
      · rw [hc] at hpred
        simp only [Bool.true_and, Bool.not_not] at hpred
        simp only [providedElsewhere, List.any_eq_true, Bool.and_eq_true,
          bne_iff_ne] at hpred
        rcases hpred with ⟨m', hm', ⟨hne, hen⟩, hcont⟩
        exact Or.inr ⟨m', hm', hne, hen, contains_iff_mem.mp hcont⟩
      · rw [Bool.not_eq_true] at hc
        exact Or.inl fun hmem => by rw [contains_iff_mem.mpr hmem] at hc; cases hc
    · intro hcase
      refine List.mem_filter.mpr ⟨hpmem, ?_⟩
      rw [hfn, hnm, providedElsewhere_set_same false p.name hgm]
      rcases hcase with hnot | ⟨m', hm', hne, hen, hmem⟩
      · have hc : m.fileNames.contains p.name = false := by
          rw [Bool.eq_false_iff]
          exact fun hcc => hnot (contains_iff_mem.mp hcc)
        rw [hc]
        simp
      · have hPE : providedElsewhere s.mods m.name p.name = true := by
          simp only [providedElsewhere, List.any_eq_true, Bool.and_eq_true,
            bne_iff_ne]
          exact ⟨m', hm', ⟨hne, hen⟩, contains_iff_mem.mpr hmem⟩
        rw [hPE]
        simp

/-- C2 witness: the amended statement applied to the two-provider state,
deactivating the conflict-winning provider B. -/
theorem c2_deactivate_shared_provider_witness :
    (∀ q ∈ c2end.plugins, q ∈ c2start.plugins)
  ∧ (∀ p ∈ c2start.plugins,
      (p ∈ c2end.plugins ↔
        (p.name ∉ ({ c1b with enabled := true } : Mod).fileNames ∨
          ∃ m' ∈ c2start.mods,
            m'.name ≠ ({ c1b with enabled := true } : Mod).name ∧
              m'.enabled = true ∧ p.name ∈ m'.fileNames))) :=
  c2_deactivate_shared_provider c2start 1 { c1b with enabled := true } c2end
    rfl rfl

/-! ## Loader lemmas: the reverse scan picks the last provider -/

lemma findIdx?_ge {α : Type} (L : List α) (p : α → Bool) (k j : Nat)
    (h : List.findIdx? p L k = some j) : k ≤ j := by
  induction L generalizing k with
  | nil => rw [List.findIdx?_nil] at h; cases h
  | cons a L ih =>
    rw [List.findIdx?_cons] at h
    by_cases hp : p a = true
    · rw [if_pos hp] at h; cases h; exact Nat.le_refl _
    · rw [if_neg hp] at h
      exact Nat.le_of_succ_le (ih (k + 1) h)

lemma findIdx?_lt {α : Type} (L : List α) (p : α → Bool) (k j : Nat)
    (h : List.findIdx? p L k = some j) : j - k < L.length := by
  induction L generalizing k with
  | nil => rw [List.findIdx?_nil] at h; cases h
  | cons a L ih =>
    rw [List.findIdx?_cons] at h
    by_cases hp : p a = true
    · rw [if_pos hp] at h; cases h; simp
    · rw [if_neg hp] at h
      have h1 := ih (k + 1) h
      have h2 := findIdx?_ge L p (k + 1) j h
      simp only [List.length_cons]
      omega

lemma findIdx?_get?_eq_find? {α : Type} (L : List α) (p : α → Bool) (i : Nat) :
    (match List.findIdx? p L i with
     | none => none
     | some j => L.get? (j - i)) = L.find? p := by
  induction L generalizing i with
  | nil => rw [List.findIdx?_nil]; rfl
  | cons a L ih =>
    rw [List.findIdx?_cons]
    by_cases hp : p a = true
    · rw [if_pos hp]
      simp only [Nat.sub_self, List.get?]
      exact (List.find?_cons_of_pos _ hp).symm
    · rw [if_neg hp]
      rw [List.find?_cons_of_neg _ (by simpa using hp)]
      cases hL : List.findIdx? p L (i + 1) with
      | none =>
        have hih := ih (i + 1)
        rw [hL] at hih
        exact hih
      | some j =>
        have hge := findIdx?_ge L p (i + 1) j hL
        show (a :: L).get? (j - i) = List.find? p L
        have hstep : (a :: L).get? (j - i) = L.get? (j - (i + 1)) := by
          have hj : j - i = (j - (i + 1)) + 1 := by omega
          rw [hj]
          rfl
        rw [hstep]
        have hih := ih (i + 1)
        rw [hL] at hih
        exact hih

/-- lastProviderBridge : the value the reverse scan of __init__ finds (the
first match of mods[::-1]) is the last mod in list order whose plugin set
contains the name. -/
lemma lastProviderBridge (mods : List Mod) (n : String) :
    (match revProviderIdx mods n with
     | none => none
     | some i => mods.get? i)
      = (mods.filter (fun m => m.plugins.contains n)).getLast? := by
  have hchain : (mods.filter (fun m => m.plugins.contains n)).getLast?
      = mods.reverse.find? (fun m => m.plugins.contains n) := by
    rw [List.getLast?_eq_head?_reverse]
    rw [show (mods.filter (fun m => m.plugins.contains n)).reverse
      = mods.reverse.filter (fun m => m.plugins.contains n) from
      (List.filter_reverse _ _).symm]
    exact List.filter_head? _ _
  rw [hchain]
  rw [show mods.reverse.find? (fun m => m.plugins.contains n)
    = (match List.findIdx? (fun m => m.plugins.contains n) mods.reverse 0 with
       | none => none
       | some j => mods.reverse.get? (j - 0)) from
    (findIdx?_get?_eq_find? _ _ 0).symm]
  unfold revProviderIdx
  cases hL : List.findIdx? (fun m => m.plugins.contains n) mods.reverse 0 with
  | none => rfl
  | some j =>
    have hlt : j < mods.length := by
      have := findIdx?_lt mods.reverse _ 0 j hL
      simpa using this
    simp only [Nat.sub_zero]
    exact (List.get?_reverse (by simpa using hlt)).symm

lemma get?_set_self {α : Type} {l : List α} {i : Nat} {a : α} (b : α)
    (h : l.get? i = some a) : (l.set i b).get? i = some b := by
  induction l generalizing i with
  | nil => cases h
  | cons z zs ih =>
    cases i with
    | zero => rfl
    | succ j => exact ih h

/-- modProj m : the (name, plugin set) projection of a mod — the data the
reverse scan and parent assignment depend on; self-healing only flips enabled
flags and so preserves it. -/
def modProj (m : Mod) : String × List String := (m.name, m.plugins)

/-- scanParentRefSpec mods n : the parent the claim describes: the last mod in
list order whose plugin set contains n (the first found scanning in reverse),
else a synthetic DLC parent. -/
def scanParentRefSpec (mods : List Mod) (n : String) : ParentRef :=
  match ((mods.filter (fun m => m.plugins.contains n)).map Mod.name).getLast? with
  | some nm => ParentRef.modOf nm
  | none => ParentRef.dlcOf n

lemma filter_providers_map_name (n : String) (l : List Mod) :
    (l.filter (fun m => m.plugins.contains n)).map Mod.name
      = ((l.map modProj).filter (fun pr => pr.2.contains n)).map Prod.fst := by
  induction l with
  | nil => rfl
  | cons m l ih =>
    simp only [List.filter_cons, List.map_cons]
    by_cases hc : n ∈ m.plugins
    · simpa [modProj, hc] using ih
    · simpa [modProj, hc] using ih

lemma scanSpec_congr {mods mods' : List Mod}
    (h : mods.map modProj = mods'.map modProj) (n : String) :
    scanParentRefSpec mods n = scanParentRefSpec mods' n := by
  unfold scanParentRefSpec
  rw [filter_providers_map_name n mods, filter_providers_map_name n mods', h]

lemma map_modProj_set {l : List Mod} {i : Nat} {a : Mod} (st : Bool)
    (h : l.get? i = some a) :
    (l.set i { a with enabled := st }).map modProj = l.map modProj := by
  induction l generalizing i with
  | nil => cases h
  | cons z zs ih =>
    cases i with
    | zero => cases h; simp [modProj]
    | succ j => simpa using ih h

/-- loadPluginLine_step : one loader line preserves the (name, plugin set)
projection of the mods, and either leaves the plugin list unchanged or appends
exactly one plugin whose name was not yet managed and whose parent is the
reverse-scan winner over the mods (or the DLC stand-in when no mod provides
the name). -/
lemma loadPluginLine_step (g : Game) (fs : FS) (ctx : LoadCtx) (line : String) :
    ((loadPluginLine g fs ctx line).mods.map modProj = ctx.mods.map modProj)
  ∧ ((loadPluginLine g fs ctx line).plugins = ctx.plugins
     ∨ ∃ p : Plugin, (loadPluginLine g fs ctx line).plugins = ctx.plugins ++ [p]
        ∧ p.name ∉ ctx.plugins.map Plugin.name
        ∧ p.parent_ref = scanParentRefSpec ctx.mods p.name) := by
  by_cases h1 : (pyStripWs line == "" || strStartsWith (pyStripWs line) "#") = true
  · simp only [loadPluginLine, h1, if_true]
    refine ⟨?_, Or.inl ?_⟩ <;> trivial
  · rw [Bool.not_eq_true] at h1
    by_cases h2 : (!fsExists fs (pyJoin g.data (pyStripWs (pyStripChar line '*')))) = true
    · simp only [loadPluginLine, h1, h2, Bool.false_eq_true, if_false, if_true]
      refine ⟨?_, Or.inl ?_⟩ <;> trivial
    · rw [Bool.not_eq_true] at h2
      cases hA : revProviderIdx ctx.mods (pyStripWs (pyStripChar line '*')) with
      | none =>
        have hspec : scanParentRefSpec ctx.mods (pyStripWs (pyStripChar line '*'))
            = ParentRef.dlcOf (pyStripWs (pyStripChar line '*')) := by
          have hbr := lastProviderBridge ctx.mods (pyStripWs (pyStripChar line '*'))
          rw [hA] at hbr
          unfold scanParentRefSpec
          rw [List.getLast?_map, ← hbr]
          rfl
        by_cases h3 : ((ctx.plugins.map Plugin.name).contains
            (pyStripWs (pyStripChar line '*'))) = true
        · simp only [loadPluginLine, h1, h2, hA, h3, Bool.false_eq_true,
            if_false, if_true]
          refine ⟨?_, Or.inl ?_⟩ <;> trivial
        · rw [Bool.not_eq_true] at h3
          simp only [loadPluginLine, h1, h2, hA, h3, Bool.false_eq_true,
            if_false, if_true]
          refine ⟨by trivial, Or.inr ⟨_, by trivial, ?_, ?_⟩⟩
          · intro hmem
            rw [contains_iff_mem.mpr hmem] at h3
            cases h3
          · exact hspec.symm
      | some i =>
        cases hB : ctx.mods.get? i with
        | none =>
          simp only [loadPluginLine, h1, h2, hA, hB, Bool.false_eq_true, if_false]
          refine ⟨?_, Or.inl ?_⟩ <;> trivial
        | some m =>
          have hspec : scanParentRefSpec ctx.mods (pyStripWs (pyStripChar line '*'))
              = ParentRef.modOf m.name := by
            have hbr := lastProviderBridge ctx.mods (pyStripWs (pyStripChar line '*'))
            rw [hA] at hbr
            unfold scanParentRefSpec
            rw [List.getLast?_map, ← hbr]
            dsimp only
            rw [hB]
            rfl
          by_cases hheal : (strStartsWith (pyStripWs line) "*" &&
              Mod.files_in_place fs m) = true
          · have hups : (ctx.mods.set i { m with enabled := true }).get? i
                = some { m with enabled := true } := get?_set_self _ hB
            by_cases h3 : ((ctx.plugins.map Plugin.name).contains
                (pyStripWs (pyStripChar line '*'))) = true
            · simp only [loadPluginLine, h1, h2, hA, hB, hheal, hups, h3,
                Bool.false_eq_true, if_false, if_true, Bool.not_true]
              exact ⟨map_modProj_set true hB, Or.inl (by trivial)⟩
            · rw [Bool.not_eq_true] at h3
              simp only [loadPluginLine, h1, h2, hA, hB, hheal, hups, h3,
                Bool.false_eq_true, if_false, if_true, Bool.not_true]
              refine ⟨map_modProj_set true hB, Or.inr ⟨_, by trivial, ?_, ?_⟩⟩
              · intro hmem
                rw [contains_iff_mem.mpr hmem] at h3
                cases h3
              · exact hspec.symm
          · rw [Bool.not_eq_true] at hheal
            by_cases hen : m.enabled = true
            · by_cases h3 : ((ctx.plugins.map Plugin.name).contains
                  (pyStripWs (pyStripChar line '*'))) = true
              · simp only [loadPluginLine, h1, h2, hA, hB, hheal, hen, h3,
                  Bool.false_eq_true, if_false, if_true, Bool.not_true]
                refine ⟨?_, Or.inl ?_⟩ <;> trivial
              · rw [Bool.not_eq_true] at h3
                simp only [loadPluginLine, h1, h2, hA, hB, hheal, hen, h3,
                  Bool.false_eq_true, if_false, if_true, Bool.not_true]
                refine ⟨by trivial, Or.inr ⟨_, by trivial, ?_, ?_⟩⟩
                · intro hmem
                  rw [contains_iff_mem.mpr hmem] at h3
                  cases h3
                · exact hspec.symm
            · rw [Bool.not_eq_true] at hen
              simp only [loadPluginLine, h1, h2, hA, hB, hheal, hen,
                Bool.false_eq_true, if_false, if_true, Bool.not_false]
              refine ⟨?_, Or.inl ?_⟩ <;> trivial

/-- loadLines_inv : folding loader lines preserves the mods' (name, plugins)
projection and only appends plugins: each appended plugin has a fresh name
and is parented to the reverse-scan winner over the initial mods. -/
lemma loadLines_inv (g : Game) (fs : FS) (lines : List String) (ctx : LoadCtx) :
    ((lines.foldl (loadPluginLine g fs) ctx).mods.map modProj
        = ctx.mods.map modProj)
  ∧ (∃ rest : List Plugin,
      (lines.foldl (loadPluginLine g fs) ctx).plugins = ctx.plugins ++ rest
      ∧ (∀ p ∈ rest, p.parent_ref = scanParentRefSpec ctx.mods p.name)
      ∧ ((ctx.plugins.map Plugin.name).Nodup →
          (((ctx.plugins ++ rest).map Plugin.name).Nodup))
      ∧ (∀ p ∈ rest, p.name ∉ ctx.plugins.map Plugin.name)) := by
  induction lines generalizing ctx with
  | nil =>
    exact ⟨rfl, [], by simp, by simp, fun hnd => by simpa using hnd, by simp⟩
  | cons line rest ih =>
    simp only [List.foldl_cons]
    rcases loadPluginLine_step g fs ctx line with ⟨hproj, hstep⟩
    rcases ih (loadPluginLine g fs ctx line) with ⟨hproj2, rest2, heq2, hpar2, hnd2, hfresh2⟩
    rcases hstep with hsame | ⟨p0, happ, hfresh0, hpar0⟩
    · refine ⟨hproj2.trans hproj, rest2, by rw [heq2, hsame], ?_, ?_, ?_⟩
      · intro p hp
        rw [hpar2 p hp, scanSpec_congr hproj p.name]
      · intro hnd
        have := hnd2 (by rw [hsame]; exact hnd)
        rw [hsame] at this
        exact this
      · intro p hp
        have := hfresh2 p hp
        rw [hsame] at this
        exact this
    · refine ⟨hproj2.trans hproj, p0 :: rest2, ?_, ?_, ?_, ?_⟩
      · rw [heq2, happ, List.append_assoc, List.singleton_append]
      · intro p hp
        rcases List.mem_cons.mp hp with hp | hp
        · subst hp; exact hpar0
        · rw [hpar2 p hp, scanSpec_congr hproj p.name]
      · intro hnd
        have hnd1 : (((loadPluginLine g fs ctx line).plugins).map Plugin.name).Nodup := by
          rw [happ]
          simp only [List.map_append, List.map_cons, List.map_nil]
          rw [List.nodup_append]
          refine ⟨hnd, List.nodup_singleton _, ?_⟩
          intro x hx
          simp only [List.mem_singleton]
          intro hx1
          subst hx1
          exact hfresh0 hx
        have := hnd2 hnd1
        rw [happ, List.append_assoc, List.singleton_append] at this
        exact this
      · intro p hp
        rcases List.mem_cons.mp hp with hp | hp
        · subst hp; exact hfresh0
        · intro hmem
          apply hfresh2 p hp
          rw [happ]
          simp only [List.map_append, List.mem_append]
          exact Or.inl hmem

/-- C6: during loading, every managed plugin's assigned parent is the first
mod found scanning the mod list in reverse order whose plugin set contains
the name (i.e. the last, highest-priority, provider), defaulting to a
synthetic DLC parent when no mod matches — computed against the scanned mod
list, whose (name, plugin set) data the self-heal mutations never change
— and a plugin is appended only when its name is not already managed, so the
entries created from the plugin-order file (read first) survive the DLC
listing unchanged and take precedence for duplicated names.  This is the
plugin phase of __init__, which reload runs as one fold over the plugin-file
lines followed by the DLC lines. -/
theorem c6_loader_parent_and_precedence (g : Game) (fs : FS) (mods : List Mod)
    (pluginLines dlcLines : List String) :
    (∀ p ∈ (dlcLines.foldl (loadPluginLine g fs)
        (pluginLines.foldl (loadPluginLine g fs) ⟨mods, []⟩)).plugins,
      p.parent_ref = scanParentRefSpec mods p.name)
  ∧ (((dlcLines.foldl (loadPluginLine g fs)
        (pluginLines.foldl (loadPluginLine g fs) ⟨mods, []⟩)).plugins.map
          Plugin.name).Nodup)
  ∧ (∃ rest : List Plugin,
      (dlcLines.foldl (loadPluginLine g fs)
        (pluginLines.foldl (loadPluginLine g fs) ⟨mods, []⟩)).plugins
        = (pluginLines.foldl (loadPluginLine g fs) ⟨mods, []⟩).plugins ++ rest
      ∧ ∀ p ∈ rest, p.name ∉
          ((pluginLines.foldl (loadPluginLine g fs) ⟨mods, []⟩)).plugins.map
            Plugin.name) := by
  rcases loadLines_inv g fs pluginLines ⟨mods, []⟩ with
    ⟨hproj1, rest1, heq1, hpar1, hnd1, _⟩
  rcases loadLines_inv g fs dlcLines
    (pluginLines.foldl (loadPluginLine g fs) ⟨mods, []⟩) with
    ⟨_, rest2, heq2, hpar2, hnd2, hfresh2⟩
  have hplug1 : (pluginLines.foldl (loadPluginLine g fs) ⟨mods, []⟩).plugins
      = rest1 := by
    rw [heq1]; rfl
  refine ⟨?_, ?_, rest2, heq2, hfresh2⟩
  · intro p hp
    rw [heq2] at hp
    rcases List.mem_append.mp hp with hp | hp
    · rw [hplug1] at hp
      exact hpar1 p hp
    · rw [hpar2 p hp, scanSpec_congr hproj1 p.name]
  · have hstart : ((⟨mods, []⟩ : LoadCtx).plugins.map Plugin.name).Nodup := by
      simp
    have h1 := hnd1 hstart
    have h2 := hnd2 (by rw [hplug1]; simpa using h1)
    rw [heq2]
    exact h2

/-- g6, fs6 : a concrete game and filesystem for the loader: the backing file
of p.esp exists in the data directory. -/
def g6 : Game :=
  { name := "Skyrim", directory := "/game", data := "/game/Data",
    ammo_conf := "/conf/ammo.conf", dlc_file := "/appdata/DLCList.txt",
    plugin_file := "/appdata/Plugins.txt", ammo_mods_dir := "/ammo/mods" }

def fs6 : FS := [("/game/Data", FSEntry.dir), ("/game/Data/p.esp", FSEntry.file)]

/-- C6 witness: loading the single starred line for p.esp over the two
providers A and B parents the plugin to B, the reverse-scan winner. -/
theorem c6_loader_parent_witness :
    ({ name := "p.esp", enabled := true, parent_ref := ParentRef.modOf "B",
       visible := true } : Plugin).parent_ref
      = scanParentRefSpec [c1a, c1b] "p.esp" :=
  (c6_loader_parent_and_precedence g6 fs6 [c1a, c1b] ["*p.esp"] []).1
    _ (by decide)

/-! ## C4: commit and unmanaged files -/

lemma fsGet_append {fs : FS} {p : String} {e : FSEntry} (l : FS)
    (h : fsGet fs p = some e) : fsGet (fs ++ l) p = some e := by
  induction fs with
  | nil => simp [fsGet] at h
  | cons q rest ih =>
    simp only [fsGet, List.find?] at h ⊢
    by_cases hq : (q.1 == p) = true
    · rw [hq] at h ⊢
      simpa using h
    · rw [Bool.not_eq_true] at hq
      rw [hq] at h ⊢
      exact ih h

lemma fsGet_filter {fs : FS} (keep : String × FSEntry → Bool) {p : String}
    {e : FSEntry} (h : fsGet fs p = some e) (hk : keep (p, e) = true) :
    fsGet (fs.filter keep) p = some e := by
  induction fs with
  | nil => simp [fsGet] at h
  | cons q rest ih =>
    simp only [fsGet, List.find?] at h
    by_cases hq : (q.1 == p) = true
    · have hq' : q.1 = p := by simpa using hq
      rw [hq] at h
      have he : q.2 = e := by simpa using h
      have hqp : q = (p, e) := by
        rcases q with ⟨q1, q2⟩
        simp only at hq' he
        rw [hq', he]
      subst hqp
      simp only [List.filter_cons, hk, if_true]
      simp [fsGet, List.find?]
    · rw [Bool.not_eq_true] at hq
      rw [hq] at h
      simp only [List.filter_cons]
      by_cases hkq : keep q = true
      · rw [hkq]
        simp only [if_true, fsGet, List.find?, hq]
        exact ih h
      · rw [Bool.not_eq_true] at hkq
        rw [hkq]
        simp only [Bool.false_eq_true, if_false]
        exact ih h

lemma applyStage_fold_preserves (g : Game)
    (st : List (String × (String × String))) :
    ∀ (fs : FS) (sk : List String) (p : String) (e : FSEntry),
      fsGet fs p = some e →
      fsGet (st.foldl (applyStageStep g) (fs, sk)).1 p = some e := by
  induction st with
  | nil => intro fs sk p e h; exact h
  | cons entry rest ih =>
    intro fs sk p e h
    simp only [List.foldl_cons, applyStageStep]
    by_cases hex : fsExists fs entry.1 = true
    · rw [if_pos hex]
      exact ih fs _ p e h
    · rw [if_neg hex]
      exact ih _ sk p e (fsGet_append _ h)

lemma applyStage_fold_sk_mono (g : Game)
    (st : List (String × (String × String))) :
    ∀ (fs : FS) (sk : List String) (x : String), x ∈ sk →
      x ∈ (st.foldl (applyStageStep g) (fs, sk)).2 := by
  induction st with
  | nil => intro fs sk x hx; exact hx
  | cons entry rest ih =>
    intro fs sk x hx
    simp only [List.foldl_cons, applyStageStep]
    by_cases hex : fsExists fs entry.1 = true
    · rw [if_pos hex]
      exact ih fs _ x (List.mem_append_left _ hx)
    · rw [if_neg hex]
      exact ih _ sk x hx

lemma fsExists_append {fs : FS} {p : String} (l : FS)
    (h : fsExists fs p = true) : fsExists (fs ++ l) p = true := by
  simp only [fsExists, Option.isSome_iff_exists] at h ⊢
  rcases h with ⟨e, he⟩
  exact ⟨e, fsGet_append l he⟩

lemma applyStage_fold_skips (g : Game)
    (st : List (String × (String × String))) :
    ∀ (fs : FS) (sk : List String) (d nm src : String),
      (d, nm, src) ∈ st → fsExists fs d = true →
      skipMessage g nm d ∈ (st.foldl (applyStageStep g) (fs, sk)).2 := by
  induction st with
  | nil => intro fs sk d nm src hmem; cases hmem
  | cons entry rest ih =>
    intro fs sk d nm src hmem hex
    simp only [List.foldl_cons]
    rcases List.mem_cons.mp hmem with hmem0 | hmem0
    · subst hmem0
      simp only [applyStageStep, hex, if_true]
      exact applyStage_fold_sk_mono g rest fs _ _
        (List.mem_append_right _ (List.mem_singleton_self _))
    · simp only [applyStageStep]
      by_cases hex1 : fsExists fs entry.1 = true
      · rw [if_pos hex1]
        exact ih fs _ d nm src hmem0 hex
      · rw [if_neg hex1]
        exact ih _ sk d nm src hmem0 (fsExists_append _ hex)

/-- C4 (amended): commit never deletes or overwrites a pre-existing entry
that is not a symbolic link: every regular file or directory, managed or not,
survives commit unchanged, a stage destination occupied by such an entry is
skipped with a report collected after the whole stage was attempted (the
Warning carrying the reports is raised only at the very end).  Symbolic links
are NOT protected: _clean_data_dir removes every symlink under the game
directory, whether or not this configuration created it — that is the part of
the original claim that fails. -/
theorem c4_commit_preserves_nonlinks (g : Game) (s : AmmoState) (fs : FS) :
    (∀ (p : String) (e : FSEntry), e.isLink = false → fsGet fs p = some e →
       fsGet (commit g s fs).fs p = some e)
  ∧ (∀ d nm src : String, (d, nm, src) ∈ stageOf g s →
       fsExists (clean_data_dir g fs) d = true →
       skipMessage g nm d ∈ (commit g s fs).skipped
       ∧ (commitWarn (commit g s fs)).isSome = true) := by
  constructor
  · intro p e hlink h
    show fsGet (applyStage g (clean_data_dir g fs) (stageOf g s)).1 p = some e
    apply applyStage_fold_preserves
    apply fsGet_filter _ h
    simp [hlink]
  · intro d nm src hmem hex
    have hskip : skipMessage g nm d ∈ (commit g s fs).skipped :=
      applyStage_fold_skips g (stageOf g s) (clean_data_dir g fs) [] d nm src
        hmem hex
    refine ⟨hskip, ?_⟩
    unfold commitWarn
    cases hsk : (commit g s fs).skipped with
    | nil => rw [hsk] at hskip; cases hskip
    | cons a l => rfl

/-- c4state, c4fs : mod A enabled and staging /game/Data/p.esp; the
filesystem holds an unmanaged user symlink at exactly that destination (its
target is no mod file) and an unmanaged regular file. -/
def c4state : AmmoState := { mods := [{ c1a with enabled := true }] }

def c4fs : FS :=
  [("/game/Data/p.esp", FSEntry.link "/home/user/custom/p.esp"),
   ("/game/Data/user.ini", FSEntry.file)]

/-- C4 counterexample: the pre-existing symlink at the destination is not one
of this configuration's own links (its target is a foreign path), yet commit
deletes it and silently replaces it with its own link, reporting no skip —
contradicting the claim that every unmanaged destination survives with a
reported skip. -/
theorem c4_counterexample :
    fsGet c4fs "/game/Data/p.esp"
      = some (FSEntry.link "/home/user/custom/p.esp")
  ∧ fsGet (commit g6 c4state c4fs).fs "/game/Data/p.esp"
      = some (FSEntry.link "/ammo/mods/A/Data/p.esp")
  ∧ (commit g6 c4state c4fs).skipped = [] := by
  refine ⟨rfl, by decide, by decide⟩

/-- c4stateB : mod A enabled, staging /game/Data/user.ini, which collides
with the unmanaged regular file of c4fs. -/
def c4stateB : AmmoState :=
  { mods := [{ c1a with
      enabled := true,
      files := [("user.ini", "/ammo/mods/A/Data/user.ini")] }] }

/-- C4 witness: the amended statement applied concretely — the unmanaged
regular file survives the commit and its blocked stage entry is reported. -/
theorem c4_commit_preserves_nonlinks_witness :
    fsGet (commit g6 c4stateB c4fs).fs "/game/Data/user.ini" = some FSEntry.file
  ∧ (skipMessage g6 "A" "/game/Data/user.ini" ∈ (commit g6 c4stateB c4fs).skipped
      ∧ (commitWarn (commit g6 c4stateB c4fs)).isSome = true) :=
  ⟨(c4_commit_preserves_nonlinks g6 c4stateB c4fs).1 "/game/Data/user.ini"
      FSEntry.file (by decide) (by decide),
   (c4_commit_preserves_nonlinks g6 c4stateB c4fs).2 "/game/Data/user.ini" "A"
      "/ammo/mods/A/Data/user.ini" (by decide) (by decide)⟩

/-! ## C3: commit followed by refresh

String facts about the order-file line format for sane component names
(non-empty, alphanumerics and underscores — the character set rename
enforces). -/

/-- saneName n : n is non-empty and consists of alphanumerics, underscores and
dots (the character set rename enforces, plus the suffix dot of plugin file
names). -/
def saneName (n : String) : Bool :=
  !n.data.isEmpty && n.data.all (fun c => c.isAlphanum || c == '_' || c == '.')

lemma sane_char_facts {c : Char} (h : (c.isAlphanum || c == '_' || c == '.') = true) :
    (c == '*') = false ∧ c.isWhitespace = false ∧ (c == '#') = false := by
  refine ⟨?_, ?_, ?_⟩
  · by_cases hc : c = '*'
    · subst hc; simp at h
    · simpa using hc
  · cases hw : c.isWhitespace
    · rfl
    · exfalso
      have hw' : c = ' ' ∨ c = '\t' ∨ c = '\x0d' ∨ c = '\n' := by
        simpa [Char.isWhitespace, or_assoc, or_comm, or_left_comm] using hw
      rcases hw' with rfl | rfl | rfl | rfl <;> simp at h
  · by_cases hc : c = '#'
    · subst hc; simp at h
    · simpa using hc

lemma dropWhile_eq_self_of_none {l : List Char} {pr : Char → Bool}
    (h : ∀ c ∈ l, pr c = false) : l.dropWhile pr = l := by
  cases l with
  | nil => rfl
  | cons c rest =>
    rw [List.dropWhile_cons, h c (List.mem_cons_self _ _)]
    simp

lemma chStripBoth_eq_self {l : List Char} {pr : Char → Bool}
    (h : ∀ c ∈ l, pr c = false) : chStripBoth pr l = l := by
  unfold chStripBoth
  rw [dropWhile_eq_self_of_none h]
  rw [dropWhile_eq_self_of_none (fun c hc => h c (List.mem_reverse.mp hc))]
  exact List.reverse_reverse l

/-- saneLine_facts : how the loader's line parsing behaves on a generated
order-file line for a sane name: whitespace stripping and star stripping
recover the name, the line is neither blank nor a comment, and its star
marker is exactly the enabled flag it was written from. -/
lemma saneLine_facts (n : String) (hs : saneName n = true) (b : Bool) :
    pyStripWs ((if b then "*" else "") ++ n) = (if b then "*" else "") ++ n
  ∧ pyStripWs (pyStripChar ((if b then "*" else "") ++ n) '*') = n
  ∧ strStartsWith ((if b then "*" else "") ++ n) "#" = false
  ∧ strStartsWith ((if b then "*" else "") ++ n) "*" = b
  ∧ (((if b then "*" else "") ++ n) == "") = false := by
  obtain ⟨hne, hall⟩ : (!n.data.isEmpty) = true
      ∧ n.data.all (fun c => c.isAlphanum || c == '_' || c == '.') = true := by
    simpa [saneName, Bool.and_eq_true] using hs
  have hgood : ∀ c ∈ n.data, (c.isAlphanum || c == '_' || c == '.') = true :=
    fun c hc => List.all_eq_true.mp hall c hc
  have hnn : n.data ≠ [] := by
    intro hc
    rw [hc] at hne
    simp at hne
  have hdata : ((if b then "*" else "") ++ n).data
      = (if b then ['*'] else []) ++ n.data := by
    cases b <;> rfl
  have hnws : ∀ c ∈ n.data, c.isWhitespace = false :=
    fun c hc => (sane_char_facts (hgood c hc)).2.1
  have hnstar : ∀ c ∈ n.data, (c == '*') = false :=
    fun c hc => (sane_char_facts (hgood c hc)).1
  refine ⟨?_, ?_, ?_, ?_, ?_⟩
  · show String.mk (chStripBoth Char.isWhitespace _) = _
    rw [hdata]
    rw [chStripBoth_eq_self (by
      intro c hc
      rcases List.mem_append.mp hc with hc | hc
      · cases b with
        | false => simp at hc
        | true =>
          simp only [if_true] at hc
          rw [List.mem_singleton] at hc
          subst hc
          decide
      · exact hnws c hc)]
    cases b <;> rfl
  · show String.mk (chStripBoth Char.isWhitespace
      (String.mk (chStripBoth (· == '*') _)).data) = n
    rw [hdata]
    have hstarstrip : chStripBoth (· == '*') ((if b then ['*'] else []) ++ n.data)
        = n.data := by
      unfold chStripBoth
      have hfront : ((if b then ['*'] else []) ++ n.data).dropWhile (· == '*')
          = n.data := by
        cases b with
        | false =>
          simp only [Bool.false_eq_true, if_false, List.nil_append]
          exact dropWhile_eq_self_of_none hnstar
        | true =>
          simp only [if_true, List.singleton_append, List.dropWhile_cons]
          rw [show (('*' == '*') = true) from rfl]
          simp only [if_true]
          exact dropWhile_eq_self_of_none hnstar
      rw [hfront]
      rw [dropWhile_eq_self_of_none (fun c hc => hnstar c (List.mem_reverse.mp hc))]
      exact List.reverse_reverse _
    rw [hstarstrip]
    rw [chStripBoth_eq_self hnws]
  · show chStartsWith _ _ = false
    rw [hdata]
    cases b with
    | false =>
      simp only [Bool.false_eq_true, if_false, List.nil_append]
      cases hd : n.data with
      | nil => exact absurd hd hnn
      | cons c rest =>
        show (c == '#' && chStartsWith rest []) = false
        rw [(sane_char_facts (hgood c (by rw [hd]; exact List.mem_cons_self _ _))).2.2]
        rfl
    | true => simp [chStartsWith]
  · show chStartsWith _ _ = b
    rw [hdata]
    cases b with
    | false =>
      simp only [Bool.false_eq_true, if_false, List.nil_append]
      cases hd : n.data with
      | nil => exact absurd hd hnn
      | cons c rest =>
        show (c == '*' && chStartsWith rest []) = false
        rw [hnstar c (by rw [hd]; exact List.mem_cons_self _ _)]
        rfl
    | true => simp [chStartsWith]
  · rw [beq_eq_false_iff_ne]
    intro hc
    have := congrArg String.data hc
    rw [hdata] at this
    cases b with
    | false =>
      simp only [Bool.false_eq_true, if_false, List.nil_append] at this
      exact hnn this
    | true => simp at this

/-- proj3 m : the (name, enabled, plugins) projection the round-trip
statement compares. -/
def proj3 (m : Mod) : String × Bool × List String := (m.name, m.enabled, m.plugins)

/-- storeFold msTail store : the accumulated effect of the ordering phase on
the scanned store: set each listed mod's flag in turn. -/
def storeFold (msTail : List Mod) (store : List Mod) : List Mod :=
  msTail.foldl (fun st x => setFirstByName st x.name x.enabled) store

lemma setFirst_map_modProj (l : List Mod) (n : String) (b : Bool) :
    (setFirstByName l n b).map modProj = l.map modProj := by
  induction l with
  | nil => rfl
  | cons m rest ih =>
    simp only [setFirstByName]
    by_cases hm : (m.name == n) = true
    · rw [hm]
      simp [modProj]
    · rw [Bool.not_eq_true] at hm
      rw [hm]
      simpa using ih

lemma setFirst_map_name (l : List Mod) (n : String) (b : Bool) :
    (setFirstByName l n b).map Mod.name = l.map Mod.name := by
  have h := setFirst_map_modProj l n b
  have h1 := congrArg (List.map Prod.fst) h
  simpa [List.map_map, Function.comp, modProj] using h1

lemma find?_setFirst_self {l : List Mod} {n : String} {a : Mod} (b : Bool)
    (h : l.find? (fun x => x.name == n) = some a) :
    (setFirstByName l n b).find? (fun x => x.name == n)
      = some { a with enabled := b } := by
  induction l with
  | nil => simp [List.find?] at h
  | cons m rest ih =>
    cases hm : (m.name == n) with
    | true =>
      simp only [List.find?, hm, Option.some.injEq] at h
      subst h
      simp only [setFirstByName, hm, if_true]
      have hm2 : (({ m with enabled := b } : Mod).name == n) = true := hm
      simp only [List.find?, hm2]
    | false =>
      simp only [List.find?, hm] at h
      simp only [setFirstByName, hm, Bool.false_eq_true, if_false,
        List.find?]
      exact ih h

lemma find?_setFirst_other {l : List Mod} {n n' : String} (b : Bool)
    (hne : n ≠ n') :
    (setFirstByName l n' b).find? (fun x => x.name == n)
      = l.find? (fun x => x.name == n) := by
  induction l with
  | nil => rfl
  | cons m rest ih =>
    simp only [setFirstByName]
    cases hm : (m.name == n') with
    | true =>
      simp only [if_true]
      have hmn : (m.name == n) = false := by
        rw [beq_eq_false_iff_ne]
        intro hc
        rw [beq_iff_eq] at hm
        exact hne (hc ▸ hm ▸ rfl)
      have hmn2 : (({ m with enabled := b } : Mod).name == n) = false := hmn
      simp only [List.find?, hmn2, hmn]
    | false =>
      simp only [Bool.false_eq_true, if_false]
      cases hmn : (m.name == n) with
      | true =>
        simp only [List.find?, hmn]
      | false =>
        simp only [List.find?, hmn]
        exact ih

lemma find?_storeFold_other (msTail : List Mod) (store : List Mod) (n : String)
    (h : ∀ x ∈ msTail, x.name ≠ n) :
    (storeFold msTail store).find? (fun x => x.name == n)
      = store.find? (fun x => x.name == n) := by
  induction msTail generalizing store with
  | nil => rfl
  | cons m rest ih =>
    show (storeFold rest (setFirstByName store m.name m.enabled)).find? _ = _
    rw [ih _ (fun x hx => h x (List.mem_cons_of_mem _ hx))]
    exact find?_setFirst_other m.enabled
      (fun hc => h m (List.mem_cons_self _ _) hc.symm)

lemma store_fold_lookup (msTail : List Mod) :
    ∀ store : List Mod, (msTail.map Mod.name).Nodup →
    (∀ mm ∈ msTail, ∃ a, store.find? (fun x => x.name == mm.name) = some a
        ∧ a.name = mm.name ∧ a.plugins = mm.plugins) →
    ∀ mm ∈ msTail, ∃ m',
      (storeFold msTail store).find? (fun x => x.name == mm.name) = some m'
      ∧ m'.name = mm.name ∧ m'.plugins = mm.plugins
      ∧ m'.enabled = mm.enabled := by
  induction msTail with
  | nil => intro store _ _ mm hmm; cases hmm
  | cons m1 rest ih =>
    intro store hnd hlook mm hmm
    simp only [List.map_cons, List.nodup_cons] at hnd
    rcases List.mem_cons.mp hmm with hmm0 | hmm0
    · subst hmm0
      rcases hlook mm (List.mem_cons_self _ _) with ⟨a, ha, haname, haplug⟩
      refine ⟨{ a with enabled := mm.enabled }, ?_, haname, haplug, rfl⟩
      show (storeFold rest (setFirstByName store mm.name mm.enabled)).find? _ = _
      rw [find?_storeFold_other rest _ mm.name (fun x hx hc => by
        exact hnd.1 (hc ▸ List.mem_map_of_mem Mod.name hx))]
      exact find?_setFirst_self mm.enabled ha
    · have hlook1 : ∀ mm' ∈ rest, ∃ a,
          (setFirstByName store m1.name m1.enabled).find?
            (fun x => x.name == mm'.name) = some a
          ∧ a.name = mm'.name ∧ a.plugins = mm'.plugins := by
        intro mm' hmm'
        rcases hlook mm' (List.mem_cons_of_mem _ hmm') with ⟨a, ha, h1, h2⟩
        refine ⟨a, ?_, h1, h2⟩
        rw [find?_setFirst_other m1.enabled (fun hc => by
          exact hnd.1 (hc ▸ List.mem_map_of_mem Mod.name hmm'))]
        exact ha
      exact ih _ hnd.2 hlook1 mm hmm0

lemma scanned_lookup (scanned ms : List Mod)
    (hproj : scanned.map modProj = ms.map modProj)
    (hnd : (ms.map Mod.name).Nodup) :
    ∀ mm ∈ ms, ∃ a, scanned.find? (fun x => x.name == mm.name) = some a
      ∧ a.name = mm.name ∧ a.plugins = mm.plugins := by
  induction ms generalizing scanned with
  | nil => intro mm hmm; cases hmm
  | cons m1 rest ih =>
    intro mm hmm
    cases scanned with
    | nil => simp at hproj
    | cons a stail =>
      simp only [List.map_cons, List.cons.injEq] at hproj
      have haname : a.name = m1.name := congrArg Prod.fst hproj.1
      have haplug : a.plugins = m1.plugins := congrArg Prod.snd hproj.1
      simp only [List.map_cons, List.nodup_cons] at hnd
      rcases List.mem_cons.mp hmm with hmm0 | hmm0
      · subst hmm0
        refine ⟨a, ?_, haname, haplug⟩
        simp only [List.find?]
        rw [show (a.name == mm.name) = true from by
          rw [beq_iff_eq]; exact haname]
      · have hne : (a.name == mm.name) = false := by
          rw [beq_eq_false_iff_ne, haname]
          intro hc
          exact hnd.1 (hc ▸ List.mem_map_of_mem Mod.name hmm0)
        rcases ih stail hproj.2 hnd.2 mm hmm0 with ⟨a', ha', h1, h2⟩
        refine ⟨a', ?_, h1, h2⟩
        simp only [List.find?, hne]
        exact ha'

lemma set_of_get?_self {α : Type} : ∀ (l : List α) (i : Nat) (a : α),
    l.get? i = some a → l.set i a = l := by
  intro l
  induction l with
  | nil => intro i a h; cases h
  | cons x t ih =>
    intro i a h
    cases i with
    | zero =>
      simp only [List.get?] at h
      rw [Option.some.injEq] at h
      rw [← h]
      rfl
    | succ j =>
      show x :: t.set j a = x :: t
      rw [ih j a h]

lemma mod_set_enabled_self {m : Mod} (h : m.enabled = true) :
    ({ m with enabled := true } : Mod) = m := by
  cases m with
  | mk nm lo pd mc hd fo en vi fi pl =>
    have h' : en = true := h
    subst h'
    rfl

lemma map_comp_congr {α β : Type} (f : α → α) (pr : α → β)
    (h : ∀ a, pr (f a) = pr a) (l : List α) :
    (l.map f).map pr = l.map pr := by
  induction l with
  | nil => rfl
  | cons a t ih => simp only [List.map_cons, h a, ih]

lemma findIdx?_congr_b {α β : Type} (pr : α → Bool) (qr : β → Bool) :
    ∀ (l1 : List α) (l2 : List β), l1.map pr = l2.map qr →
    ∀ i, l1.findIdx? pr i = l2.findIdx? qr i := by
  intro l1
  induction l1 with
  | nil =>
    intro l2 h i
    cases l2 with
    | nil => rfl
    | cons b t => simp at h
  | cons a t ih =>
    intro l2 h i
    cases l2 with
    | nil => simp at h
    | cons b t2 =>
      simp only [List.map_cons, List.cons.injEq] at h
      rw [List.findIdx?_cons, List.findIdx?_cons, h.1]
      cases qr b with
      | true => rfl
      | false =>
        simp only [Bool.false_eq_true, if_false]
        exact ih t2 h.2 (i + 1)

lemma proj3_modProj {l1 l2 : List Mod} (h : l1.map proj3 = l2.map proj3) :
    l1.map modProj = l2.map modProj := by
  have h1 := congrArg
    (List.map (fun t : String × Bool × List String => (t.1, t.2.2))) h
  simpa [List.map_map, Function.comp, proj3, modProj] using h1

lemma revProviderIdx_congr {l1 l2 : List Mod} (n : String)
    (h : l1.map modProj = l2.map modProj) :
    revProviderIdx l1 n = revProviderIdx l2 n := by
  have hplug : l1.map (fun m => m.plugins.contains n)
      = l2.map (fun m => m.plugins.contains n) := by
    have h1 := congrArg
      (List.map (fun t : String × List String => t.2.contains n)) h
    simpa [List.map_map, Function.comp, modProj] using h1
  have hlen : l1.length = l2.length := by
    have h2 := congrArg List.length h
    simpa using h2
  have hrev : l1.reverse.map (fun m => m.plugins.contains n)
      = l2.reverse.map (fun m => m.plugins.contains n) := by
    rw [List.map_reverse, List.map_reverse, hplug]
  unfold revProviderIdx
  rw [findIdx?_congr_b _ _ l1.reverse l2.reverse hrev 0, hlen]

lemma get?_enabled_congr {l1 l2 : List Mod} (h : l1.map proj3 = l2.map proj3)
    (i : Nat) : (l1.get? i).map Mod.enabled = (l2.get? i).map Mod.enabled := by
  have h1 := congrArg
    (List.map (fun t : String × Bool × List String => t.2.1)) h
  rw [List.map_map, List.map_map] at h1
  have h2 : l1.map Mod.enabled = l2.map Mod.enabled := by
    simpa [Function.comp, proj3] using h1
  have h3 := congrArg (fun l : List Bool => l.get? i) h2
  simpa [List.get?_map] using h3

lemma filter_not_contains_nil (l : List Mod) (ns : List String)
    (h : ∀ m ∈ l, ns.contains m.name = true) :
    l.filter (fun m => !ns.contains m.name) = [] := by
  induction l with
  | nil => rfl
  | cons a t ih =>
    rw [List.filter_cons]
    have ha := h a (List.mem_cons_self _ _)
    simp only [ha, Bool.not_true, Bool.false_eq_true, if_false]
    exact ih (fun m hm => h m (List.mem_cons_of_mem _ hm))

lemma storeFold_map_modProj (msTail : List Mod) :
    ∀ store : List Mod,
    (storeFold msTail store).map modProj = store.map modProj := by
  induction msTail with
  | nil => intro store; rfl
  | cons m rest ih =>
    intro store
    show (storeFold rest (setFirstByName store m.name m.enabled)).map modProj = _
    rw [ih, setFirst_map_modProj]

lemma storeFold_map_name (msTail store : List Mod) :
    (storeFold msTail store).map Mod.name = store.map Mod.name := by
  have h := congrArg (List.map Prod.fst) (storeFold_map_modProj msTail store)
  simpa [List.map_map, Function.comp, modProj] using h

lemma orderFold_eq (msTail : List Mod) :
    ∀ (store : List Mod) (ns : List String),
    (∀ m ∈ msTail, saneName m.name = true) →
    (∀ m ∈ msTail, (store.map Mod.name).contains m.name = true) →
    (saveModLines msTail).foldl orderModsStep (store, ns)
      = (storeFold msTail store, ns ++ msTail.map Mod.name) := by
  induction msTail with
  | nil =>
    intro store ns _ _
    simp [saveModLines, storeFold]
  | cons m rest ih =>
    intro store ns hsane hmem
    obtain ⟨h1, h2, h3, h4, h5⟩ :=
      saneLine_facts m.name (hsane m (List.mem_cons_self _ _)) m.enabled
    have hstep : orderModsStep (store, ns)
        ((if m.enabled then "*" else "") ++ m.name)
        = (setFirstByName store m.name m.enabled, ns ++ [m.name]) := by
      simp only [orderModsStep, h2, h3, h4, hmem m (List.mem_cons_self _ _),
        Bool.not_true, Bool.false_eq_true, if_false]
    show (saveModLines rest).foldl orderModsStep
        (orderModsStep (store, ns) ((if m.enabled then "*" else "") ++ m.name))
      = _
    rw [hstep]
    rw [ih (setFirstByName store m.name m.enabled) (ns ++ [m.name])
      (fun x hx => hsane x (List.mem_cons_of_mem _ hx))
      (fun x hx => by
        rw [setFirst_map_name]
        exact hmem x (List.mem_cons_of_mem _ hx))]
    rw [List.append_assoc]
    rfl

lemma filterMap_lookup_proj (f : String → Option Mod) :
    ∀ ms : List Mod,
    (∀ mm ∈ ms, ∃ m', f mm.name = some m' ∧ proj3 m' = proj3 mm) →
    ((ms.map Mod.name).filterMap f).map proj3 = ms.map proj3 := by
  intro ms
  induction ms with
  | nil => intro _; rfl
  | cons m rest ih =>
    intro h
    rcases h m (List.mem_cons_self _ _) with ⟨m', hm', hproj⟩
    simp only [List.map_cons, List.filterMap_cons, hm']
    rw [hproj, ih (fun mm hmm => h mm (List.mem_cons_of_mem _ hmm))]

lemma orderMods_roundtrip (scanned ms : List Mod)
    (hproj : scanned.map modProj = ms.map modProj)
    (hnd : (ms.map Mod.name).Nodup)
    (hsane : ∀ m ∈ ms, saneName m.name = true) :
    (orderMods scanned (saveModLines ms)).map proj3 = ms.map proj3 := by
  have hnames : scanned.map Mod.name = ms.map Mod.name := by
    have h := congrArg (List.map Prod.fst) hproj
    simpa [List.map_map, Function.comp, modProj] using h
  have hmem : ∀ m ∈ ms, (scanned.map Mod.name).contains m.name = true := by
    intro m hm
    rw [hnames]
    exact contains_iff_mem.mpr (List.mem_map_of_mem Mod.name hm)
  unfold orderMods
  rw [orderFold_eq ms scanned [] hsane hmem]
  dsimp only
  rw [List.nil_append]
  have hleft : (storeFold ms scanned).filter
      (fun m => !(ms.map Mod.name).contains m.name) = [] := by
    apply filter_not_contains_nil
    intro m hm
    have hmn : m.name ∈ (storeFold ms scanned).map Mod.name :=
      List.mem_map_of_mem _ hm
    rw [storeFold_map_name, hnames] at hmn
    exact contains_iff_mem.mpr hmn
  rw [hleft, List.append_nil]
  apply filterMap_lookup_proj
  intro mm hmm
  rcases store_fold_lookup ms scanned hnd (scanned_lookup scanned ms hproj hnd)
      mm hmm with ⟨m', hfind, hname, hplug, hen⟩
  refine ⟨m', hfind, ?_⟩
  show (m'.name, m'.enabled, m'.plugins) = (mm.name, mm.enabled, mm.plugins)
  rw [hname, hplug, hen]

/-- pProj p : the (name, enabled) projection of a Plugin the round-trip
statement compares. -/
def pProj (p : Plugin) : String × Bool := (p.name, p.enabled)

/-- mkPlugin n b pr : the Plugin literal loadPluginLine appends. -/
def mkPlugin (n : String) (b : Bool) (pr : ParentRef) : Plugin :=
  { name := n, enabled := b, parent_ref := pr }

lemma plugin_fold_roundtrip (g : Game) (fs : FS) (ms : List Mod) :
    ∀ (ps pre : List Plugin),
    (pre.map Plugin.name ++ ps.map Plugin.name).Nodup →
    (∀ p ∈ ps, saneName p.name = true) →
    (∀ p ∈ ps, fsExists fs (pyJoin g.data p.name) = true) →
    (∀ p ∈ ps, ∀ i, revProviderIdx ms p.name = some i →
        (ms.get? i).map Mod.enabled = some true) →
    ((savePluginLines ps).foldl (loadPluginLine g fs) ⟨ms, pre⟩).mods = ms
    ∧ ((savePluginLines ps).foldl (loadPluginLine g fs) ⟨ms, pre⟩).plugins.map
        pProj
      = pre.map pProj ++ ps.map pProj := by
  intro ps
  induction ps with
  | nil =>
    intro pre _ _ _ _
    exact ⟨rfl, by simp [savePluginLines]⟩
  | cons p rest ih =>
    intro pre hnd hsane hback hwin
    obtain ⟨h1, h2, h3, h4, h5⟩ :=
      saneLine_facts p.name (hsane p (List.mem_cons_self _ _)) p.enabled
    have hnp : p.name ∉ pre.map Plugin.name := by
      rw [List.nodup_append] at hnd
      exact fun hc => hnd.2.2 hc (List.mem_cons_self _ _)
    have hnotpre : (pre.map Plugin.name).contains p.name = false := by
      cases hcc : (pre.map Plugin.name).contains p.name with
      | false => rfl
      | true => exact absurd (contains_iff_mem.mp hcc) hnp
    have hstep : ∃ pr : ParentRef,
        loadPluginLine g fs ⟨ms, pre⟩
            ((if p.enabled then "*" else "") ++ p.name)
          = ⟨ms, pre ++ [mkPlugin p.name p.enabled pr]⟩ := by
      unfold loadPluginLine
      simp only [h1, h2, h3, h4, h5, hback p (List.mem_cons_self _ _),
        Bool.or_self, Bool.not_true, Bool.false_eq_true, if_false]
      cases hw : revProviderIdx ms p.name with
      | none =>
        refine ⟨ParentRef.dlcOf p.name, ?_⟩
        simp only [hnotpre, Bool.false_eq_true, if_false, mkPlugin]
      | some i =>
        obtain ⟨m, hm, hme⟩ : ∃ m, ms.get? i = some m ∧ m.enabled = true := by
          have hx := hwin p (List.mem_cons_self _ _) i hw
          cases hg : ms.get? i with
          | none => rw [hg] at hx; cases hx
          | some m =>
            rw [hg] at hx
            refine ⟨m, rfl, ?_⟩
            simpa using hx
        refine ⟨ParentRef.modOf m.name, ?_⟩
        dsimp only
        rw [hm]
        dsimp only
        have hmods1 : (if p.enabled && Mod.files_in_place fs m then
            ms.set i { m with enabled := true } else ms) = ms := by
          split
          · rw [mod_set_enabled_self hme, set_of_get?_self ms i m hm]
          · rfl
        rw [hmods1, hm]
        dsimp only
        rw [hme]
        simp only [Bool.not_true, Bool.false_eq_true, if_false, hnotpre,
          mkPlugin]
    rcases hstep with ⟨pr, hstep⟩
    have hnd' : ((pre ++ [mkPlugin p.name p.enabled pr]).map Plugin.name
        ++ rest.map Plugin.name).Nodup := by
      simpa [mkPlugin, List.append_assoc] using hnd
    obtain ⟨hmods, hplugs⟩ := ih
      (pre ++ [mkPlugin p.name p.enabled pr])
      hnd'
      (fun q hq => hsane q (List.mem_cons_of_mem _ hq))
      (fun q hq => hback q (List.mem_cons_of_mem _ hq))
      (fun q hq => hwin q (List.mem_cons_of_mem _ hq))
    have hfold : (savePluginLines (p :: rest)).foldl (loadPluginLine g fs)
        ⟨ms, pre⟩
        = (savePluginLines rest).foldl (loadPluginLine g fs)
            ⟨ms, pre ++ [mkPlugin p.name p.enabled pr]⟩ := by
      show (savePluginLines rest).foldl (loadPluginLine g fs)
          (loadPluginLine g fs ⟨ms, pre⟩
            ((if p.enabled then "*" else "") ++ p.name)) = _
      rw [hstep]
    rw [hfold]
    refine ⟨hmods, ?_⟩
    rw [hplugs]
    simp [pProj, mkPlugin, List.map_append, List.append_assoc]

lemma find_nil_proj (st : AmmoState) :
    (find [] st).mods.map proj3 = st.mods.map proj3
    ∧ (find [] st).plugins.map pProj = st.plugins.map pProj := by
  unfold find
  dsimp only
  constructor
  · refine Eq.trans (map_comp_congr _ proj3 ?_ _) (map_comp_congr _ proj3 ?_ _)
    · intro a
      split <;> rfl
    · intro a
      rfl
  · refine map_comp_congr _ pProj ?_ st.plugins
    intro a
    rfl

/-- postCommitWorld g w : the world exactly as refresh sees it right after a
commit: the state and filesystem commit produced, the two order files holding
precisely the lines commit wrote, and no DLC listing on disk. -/
def postCommitWorld (g : Game) (w : World) : World :=
  let cr := commit g w.state w.fs
  { state := cr.state
    fs := cr.fs
    confLines := some cr.modLines
    pluginLines := some cr.pluginLines
    dlcLines := none }

/-- C3 (amended): commit followed by refresh reproduces the ordered
(name, enabled, plugins) projection of the Mod list and the ordered
(name, enabled) projection of the Plugin list, provided that: no find filter
is active; mod and plugin names are duplicate-free and consist of
alphanumerics, underscores and dots; the fresh directory scan reproduces each
mod's name and plugin set in order; every managed plugin's backing file
exists in the game data directory after commit; there is no DLC listing; and
every plugin whose name some mod provides has its reverse-scan winner (the
last providing mod) already enabled — otherwise the loader's self-heal step
force-enables that mod and the round trip fails. -/
theorem c3_commit_then_refresh_roundtrip (o : Oracles) (g : Game) (w : World)
    (hkw : w.state.keywords = [])
    (hnd : (w.state.mods.map Mod.name).Nodup)
    (hsane : ∀ m ∈ w.state.mods, saneName m.name = true)
    (hpnd : (w.state.plugins.map Plugin.name).Nodup)
    (hpsane : ∀ p ∈ w.state.plugins, saneName p.name = true)
    (hscan : (o.scanMods (commit g w.state w.fs).fs).map modProj
      = w.state.mods.map modProj)
    (hback : ∀ p ∈ w.state.plugins,
      fsExists (commit g w.state w.fs).fs (pyJoin g.data p.name) = true)
    (hwin : ∀ p ∈ w.state.plugins,
      ∀ i ∈ (revProviderIdx w.state.mods p.name).toList,
      (w.state.mods.get? i).map Mod.enabled = some true) :
    ∃ w2, refresh o g (postCommitWorld g w) = Except.ok w2
      ∧ w2.state.mods.map proj3 = w.state.mods.map proj3
      ∧ w2.state.plugins.map pProj = w.state.plugins.map pProj := by
  refine ⟨reload o g (postCommitWorld g w), rfl, ?_, ?_⟩
  all_goals
    have hmods1 : (orderMods (o.scanMods (commit g w.state w.fs).fs)
        (saveModLines w.state.mods)).map proj3 = w.state.mods.map proj3 :=
      orderMods_roundtrip _ _ hscan hnd hsane
    have hwin1 : ∀ p ∈ w.state.plugins, ∀ i,
        revProviderIdx (orderMods (o.scanMods (commit g w.state w.fs).fs)
          (saveModLines w.state.mods)) p.name = some i →
        ((orderMods (o.scanMods (commit g w.state w.fs).fs)
          (saveModLines w.state.mods)).get? i).map Mod.enabled = some true := by
      intro p hp i hi
      rw [revProviderIdx_congr p.name (proj3_modProj hmods1)] at hi
      rw [get?_enabled_congr hmods1 i]
      exact hwin p hp i (by rw [hi]; exact List.mem_singleton.mpr rfl)
    obtain ⟨hm2, hp2⟩ := plugin_fold_roundtrip g (commit g w.state w.fs).fs
      (orderMods (o.scanMods (commit g w.state w.fs).fs)
        (saveModLines w.state.mods))
      w.state.plugins []
      (by simpa using hpnd) hpsane hback hwin1
    have hstate : (reload o g (postCommitWorld g w)).state
        = find w.state.keywords
          { changes := false
            downloads := o.scanDownloads (commit g w.state w.fs).fs
            mods := ((savePluginLines w.state.plugins ++ []).foldl
              (loadPluginLine g (commit g w.state w.fs).fs)
              ⟨orderMods (o.scanMods (commit g w.state w.fs).fs)
                (saveModLines w.state.mods), []⟩).mods
            plugins := ((savePluginLines w.state.plugins ++ []).foldl
              (loadPluginLine g (commit g w.state w.fs).fs)
              ⟨orderMods (o.scanMods (commit g w.state w.fs).fs)
                (saveModLines w.state.mods), []⟩).plugins
            keywords := w.state.keywords } := rfl
    rw [hstate, hkw, List.append_nil]
  · rw [(find_nil_proj _).1]
    dsimp only
    rw [hm2]
    exact hmods1
  · rw [(find_nil_proj _).2]
    dsimp only
    rw [hp2]
    simp

/-- Concrete loader/commit scenario for the round trip: one mod A providing
plugin P, both enabled, P backed by the link commit creates. -/
def g3 : Game :=
  { name := "game"
    directory := "/game"
    data := "/game/Data"
    ammo_conf := "/ammo/ammo.conf"
    dlc_file := "/game/DLCList.txt"
    plugin_file := "/game/Plugins.txt"
    ammo_mods_dir := "/ammo/mods" }

def modAW : Mod :=
  { name := "A"
    location := "/ammo/mods/A"
    parent_data_dir := "/game/Data"
    enabled := true
    files := [("P", "/ammo/mods/A/P")]
    plugins := ["P"] }

def plugPW : Plugin :=
  { name := "P", enabled := true, parent_ref := ParentRef.modOf "A" }

def fsW : FS :=
  [("/game", FSEntry.dir), ("/game/Data", FSEntry.dir),
   ("/ammo/mods/A/P", FSEntry.file)]

def sW : AmmoState :=
  { changes := true
    downloads := []
    mods := [modAW]
    plugins := [plugPW]
    keywords := [] }

def wW : World :=
  { state := sW
    fs := fsW
    confLines := none
    pluginLines := none
    dlcLines := none }

def oW : Oracles :=
  { scanMods := fun _ => [{ modAW with enabled := false }]
    scanDownloads := fun _ => []
    rescanMod := fun m _ => m
    extract := fun _ _ fs => fs
    integrityOk := fun _ => true
    checkIntegrity := false
    wizard := fun _ fs => fs
    scanNewMod := fun _ _ _ => modAW }

theorem c3_commit_then_refresh_roundtrip_witness :
    ∃ w2, refresh oW g3 (postCommitWorld g3 wW) = Except.ok w2
      ∧ w2.state.mods.map proj3 = wW.state.mods.map proj3
      ∧ w2.state.plugins.map pProj = wW.state.plugins.map pProj :=
  c3_commit_then_refresh_roundtrip oW g3 wW rfl (by decide) (by decide)
    (by decide) (by decide) (by decide) (by decide) (by decide)

/-- Self-heal scenario breaking the unconditional round trip: A (enabled) and
B (disabled) both provide plugin P; B is the reverse-scan winner. -/
def modBC : Mod :=
  { name := "B"
    location := "/ammo/mods/B"
    parent_data_dir := "/game/Data"
    enabled := false
    files := [("P", "/ammo/mods/B/P")]
    plugins := ["P"] }

def fs3 : FS :=
  [("/game", FSEntry.dir), ("/game/Data", FSEntry.dir),
   ("/ammo/mods/A/P", FSEntry.file), ("/ammo/mods/B/P", FSEntry.file)]

def s3 : AmmoState :=
  { changes := false
    downloads := []
    mods := [modAW, modBC]
    plugins := [plugPW]
    keywords := [] }

def w3 : World :=
  { state := s3
    fs := fs3
    confLines := none
    pluginLines := none
    dlcLines := none }

def o3 : Oracles :=
  { scanMods := fun _ => [{ modAW with enabled := false }, modBC]
    scanDownloads := fun _ => []
    rescanMod := fun m _ => m
    extract := fun _ _ fs => fs
    integrityOk := fun _ => true
    checkIntegrity := false
    wizard := fun _ fs => fs
    scanNewMod := fun _ _ _ => modAW }

/-- C3 counterexample: from mods [A enabled, B disabled] both providing
plugin P, with P enabled, commit followed by refresh does not reproduce the
enabled flags: reading the enabled line `*P` the loader finds B as the
reverse-scan winner, sees files_in_place succeed (it degenerates to the data
directory existing), and force-enables B, so B comes back enabled. -/
theorem c3_counterexample :
    refresh o3 g3 (postCommitWorld g3 w3)
        = Except.ok (reload o3 g3 (postCommitWorld g3 w3))
    ∧ ¬((reload o3 g3 (postCommitWorld g3 w3)).state.mods.map
          (fun m => (m.name, m.enabled))
        = w3.state.mods.map (fun m => (m.name, m.enabled))) :=
  ⟨rfl, by decide⟩

/-- C7 (amended): while the changes-pending flag is set, install, delete,
rename and fomod configure each refuse to run: the guard is the operation's
first statement, it raises a recoverable Warning with the operation's
dedicated message, and no in-memory list and no filesystem entry is touched
(the operation returns only the error).  refresh is not guarded: it reloads
from disk unconditionally, silently discarding pending edits. -/
theorem c7_dirty_guards (o : Oracles) (g : Game) (w : World)
    (c c' : DeleteEnum) (ia ia' : IndexArg) (i i' : Nat) (n : String)
    (h : w.state.changes = true) :
    install o g ia w
        = .error "You must `commit` changes before installing a mod."
    ∧ delete o g c ia' w
        = .error "You must `commit` changes before deleting files."
    ∧ rename o g c' i n w
        = .error "You must `commit` changes before renaming."
    ∧ configure o g i' w
        = .error "You must `commit` changes before configuring a fomod." := by
  unfold install delete rename configure
  rw [h]
  exact ⟨rfl, rfl, rfl, rfl⟩

theorem c7_dirty_guards_witness :
    install oW g3 IndexArg.all wW
        = .error "You must `commit` changes before installing a mod."
    ∧ delete oW g3 DeleteEnum.modKind (IndexArg.num 0) wW
        = .error "You must `commit` changes before deleting files."
    ∧ rename oW g3 DeleteEnum.downloadKind 0 "X" wW
        = .error "You must `commit` changes before renaming."
    ∧ configure oW g3 1 wW
        = .error "You must `commit` changes before configuring a fomod." :=
  c7_dirty_guards oW g3 wW DeleteEnum.modKind DeleteEnum.downloadKind
    IndexArg.all (IndexArg.num 0) 0 1 "X" rfl

/-- C7 counterexample: refresh performs no changes-pending check: on a world
whose flag is set (an uncommitted activation of mod A plus its plugin) it
succeeds unconditionally instead of raising, clears the flag, and the pending
edit is lost — the reloaded mod list no longer shows A enabled. -/
theorem c7_counterexample :
    sW.changes = true
    ∧ refresh oW g3 wW = Except.ok (reload oW g3 wW)
    ∧ (reload oW g3 wW).state.changes = false
    ∧ ¬((reload oW g3 wW).state.mods.map (fun m => (m.name, m.enabled))
        = wW.state.mods.map (fun m => (m.name, m.enabled))) :=
  ⟨rfl, rfl, rfl, by decide⟩

end Ammo

